import Mathlib

/-!
# Indexed block/transaction store (`lib/db/tokyo/storage.js`)

A shallow embedding of the Tokyo Cabinet storage backend of bitcoinjs-server:
the key and record codecs, the four tables the backend uses, the save and
lookup operations, and theorems about them.

Conventions of the embedding

* A JavaScript string is the list of its UTF-16 code units (`JSString`).
* A node `Buffer` is a list of bytes (`Buffer`, elements of `Fin 256`).
* JavaScript numbers that the store handles as heights are rationals (every
  finite double is one); the numeric fields of a block are natural numbers.
* An asynchronous operation is modelled by the arguments its callback finally
  receives, or by the exception that escapes instead (`Completion`).
* The storage engine is an external collaborator: a table is a finite map
  with a fault flag, and the store keeps a journal of the write requests it
  sent to the engine, in the order it sent them.
-/

namespace TokyoStorage

/-! ## Strings and buffers -/

/-- A JavaScript string: the sequence of its UTF-16 code units. -/
abbrev JSString := List Nat

/-- A node `Buffer`: a sequence of bytes. -/
abbrev Buffer := List (Fin 256)

/-- The code units of a Lean string literal (used for property names). -/
def str (s : String) : JSString := s.toList.map Char.toNat

/-- Model of `buf.toString('binary')`: every byte becomes the code unit of the same value. -/
def Buffer.toBinaryString (buf : Buffer) : JSString := buf.map (fun b => b.val)

/-- Model of `new Buffer(s, 'binary')`: every code unit is reduced to its low eight bits. -/
def Buffer.ofBinaryString (s : JSString) : Buffer :=
  s.map (fun c => (⟨c % 256, Nat.mod_lt c (by decide)⟩ : Fin 256))

/-! ## Height keys -/

/-- ECMAScript `ToInt32` of an integral number. -/
def toInt32 (n : Int) : Int :=
  let m := n % 4294967296
  if 2147483648 ≤ m then m - 4294967296 else m

/-- The operator `x >> k` (sign-propagating shift of the 32-bit value of `x`). -/
def shiftRight32 (x : Int) (k : Nat) : Int := toInt32 x / 2 ^ k

/-- The operator `x & 0xff`: the low eight bits of the 32-bit value of `x`. -/
def and0xff (x : Int) : Nat := (toInt32 x % 256).toNat

/-- Assignment of a number into a `Buffer` slot keeps its low eight bits. -/
def toByte (v : Nat) : Fin 256 := ⟨v % 256, Nat.mod_lt v (by decide)⟩

/-- Embedding of `formatHeightKey(height)`: floor the number, write the four
masked shifts into the scratch buffer, and return it as a binary string. -/
def formatHeightKey (height : ℚ) : JSString :=
  let height : Int := ⌊height⌋
  let tempHeightBuffer : Buffer :=
    [ toByte (and0xff (shiftRight32 height 24)),
      toByte (and0xff (shiftRight32 height 16)),
      toByte (and0xff (shiftRight32 height 8)),
      toByte (and0xff height) ]
  tempHeightBuffer.toBinaryString

/-- Byte-wise lexical comparison of two keys: the first differing position
decides, and a proper prefix sorts first. -/
def keyLt : JSString → JSString → Bool
  | [], [] => false
  | [], _ :: _ => true
  | _ :: _, [] => false
  | a :: as, b :: bs => decide (a < b) || (a == b && keyLt as bs)

/-! ## JSON text

`JSON.stringify` and `JSON.parse` on the fragment of JSON the block codec
uses: objects, arrays, strings, booleans, `null` and non-negative integer
numbers. A number literal with a sign, a fraction or an exponent is outside
the fragment and the parser reports `none` for it, as it does for text that is
not JSON. -/

/-- A JSON value. Object members are kept in the order of the text. -/
inductive JSON where
  | null
  | bool (b : Bool)
  | num (n : Nat)
  | str (s : JSString)
  | arr (xs : List JSON)
  | obj (kvs : List (JSString × JSON))

/-- The lowercase hexadecimal digit of a value below sixteen. -/
def hexDigit (d : Nat) : Nat := if d < 10 then 48 + d else 87 + d

/-- The escape `JSON.stringify` writes for one code unit of a string. -/
def quoteChar (c : Nat) : List Nat :=
  if c = 34 then [92, 34]
  else if c = 92 then [92, 92]
  else if c = 8 then [92, 98]
  else if c = 12 then [92, 102]
  else if c = 10 then [92, 110]
  else if c = 13 then [92, 114]
  else if c = 9 then [92, 116]
  else if c < 32 then [92, 117, 48, 48, hexDigit (c / 16), hexDigit (c % 16)]
  else [c]

/-- The characters between the quotes of a stringified string. -/
def quoteBody : JSString → List Nat
  | [] => []
  | c :: cs => quoteChar c ++ quoteBody cs

/-- A stringified string: the escaped body between double quotes. -/
def quote (s : JSString) : List Nat := 34 :: (quoteBody s ++ [34])

/-- Decimal digits of a number, most significant first, in front of `acc`. -/
def digitsAux : Nat → Nat → List Nat → List Nat
  | 0, _, acc => acc
  | fuel + 1, n, acc =>
    if n < 10 then (48 + n) :: acc
    else digitsAux fuel (n / 10) ((48 + n % 10) :: acc)

/-- The text `JSON.stringify` writes for a non-negative integer: its decimal
digits (JavaScript prints integers in plain decimal below `10^21`, far above
the integers a number holds exactly). -/
def numberToString (n : Nat) : List Nat := digitsAux (n + 1) n []

mutual
/-- Embedding of `JSON.stringify` (no indentation, members in insertion order). -/
def JSON.stringify : JSON → List Nat
  | .null => [110, 117, 108, 108]
  | .bool b => if b then [116, 114, 117, 101] else [102, 97, 108, 115, 101]
  | .num n => numberToString n
  | .str s => quote s
  | .arr xs => 91 :: (stringifyElements xs ++ [93])
  | .obj kvs => 123 :: (stringifyMembers kvs ++ [125])
/-- The comma-separated elements of an array. -/
def stringifyElements : List JSON → List Nat
  | [] => []
  | [x] => x.stringify
  | x :: y :: r => x.stringify ++ 44 :: stringifyElements (y :: r)
/-- The comma-separated members of an object. -/
def stringifyMembers : List (JSString × JSON) → List Nat
  | [] => []
  | [(k, x)] => quote k ++ 58 :: x.stringify
  | (k, x) :: y :: r => quote k ++ 58 :: (x.stringify ++ 44 :: stringifyMembers (y :: r))
end

/-- JSON white space: space, tab, line feed, carriage return. -/
def isWs (c : Nat) : Bool := c == 32 || c == 9 || c == 10 || c == 13

/-- Drop leading white space. -/
def skipWs : List Nat → List Nat
  | [] => []
  | c :: cs => if isWs c then skipWs cs else c :: cs

/-- The value of a hexadecimal digit, in either case. -/
def hexVal (c : Nat) : Option Nat :=
  if 48 ≤ c ∧ c ≤ 57 then some (c - 48)
  else if 97 ≤ c ∧ c ≤ 102 then some (c - 87)
  else if 65 ≤ c ∧ c ≤ 70 then some (c - 55)
  else none

/-- The code unit of a `\uXXXX` escape. -/
def hex4 (a b c d : Nat) : Option Nat :=
  (hexVal a).bind fun x => (hexVal b).bind fun y => (hexVal c).bind fun z =>
    (hexVal d).map fun w => ((x * 16 + y) * 16 + z) * 16 + w

/-- The code unit of a single-character escape. -/
def unescape (e : Nat) : Option Nat :=
  if e = 34 then some 34
  else if e = 92 then some 92
  else if e = 47 then some 47
  else if e = 98 then some 8
  else if e = 102 then some 12
  else if e = 110 then some 10
  else if e = 114 then some 13
  else if e = 116 then some 9
  else none

/-- Parse a string after its opening quote: the content and the text after
the closing quote. Raw control characters and unknown escapes are errors. -/
def parseStringBody : List Nat → Option (JSString × List Nat)
  | [] => none
  | c :: rest =>
    if c = 34 then some ([], rest)
    else if c = 92 then
      match rest with
      | [] => none
      | e :: rest1 =>
        if e = 117 then
          match rest1 with
          | a :: b :: c :: d :: rest2 =>
            (hex4 a b c d).bind fun u =>
              (parseStringBody rest2).map fun p => (u :: p.1, p.2)
          | _ => none
        else
          (unescape e).bind fun u =>
            (parseStringBody rest1).map fun p => (u :: p.1, p.2)
    else if c < 32 then none
    else (parseStringBody rest).map fun p => (c :: p.1, p.2)

/-- Is the code unit a decimal digit. -/
def isDigit (c : Nat) : Bool := decide (48 ≤ c) && decide (c ≤ 57)

/-- Read further decimal digits into the accumulator. -/
def parseDigits : Nat → List Nat → Nat × List Nat
  | acc, [] => (acc, [])
  | acc, c :: rest =>
    if isDigit c then parseDigits (acc * 10 + (c - 48)) rest else (acc, c :: rest)

/-- After the integer part: a fraction or an exponent is outside the fragment. -/
def numberEnd (n : Nat) : List Nat → Option (Nat × List Nat)
  | [] => some (n, [])
  | d :: r => if d = 46 ∨ d = 101 ∨ d = 69 then none else some (n, d :: r)

/-- Parse a number literal: `0`, or a non-zero digit followed by digits. -/
def parseNumber : List Nat → Option (Nat × List Nat)
  | [] => none
  | c :: rest =>
    if c = 48 then numberEnd 0 rest
    else if 49 ≤ c ∧ c ≤ 57 then numberEnd (parseDigits (c - 48) rest).1 (parseDigits (c - 48) rest).2
    else none

mutual
/-- Parse one JSON value (leading white space allowed); `fuel` bounds the
number of nested calls. -/
def parseValue : Nat → List Nat → Option (JSON × List Nat)
  | 0, _ => none
  | fuel + 1, input =>
    match skipWs input with
    | [] => none
    | c :: rest =>
      if c = 34 then (parseStringBody rest).map fun p => (JSON.str p.1, p.2)
      else if c = 116 then
        match rest with
        | 114 :: 117 :: 101 :: r => some (JSON.bool true, r)
        | _ => none
      else if c = 102 then
        match rest with
        | 97 :: 108 :: 115 :: 101 :: r => some (JSON.bool false, r)
        | _ => none
      else if c = 110 then
        match rest with
        | 117 :: 108 :: 108 :: r => some (JSON.null, r)
        | _ => none
      else if c = 91 then
        match skipWs rest with
        | 93 :: r => some (JSON.arr [], r)
        | _ => (parseElements fuel rest).map fun p => (JSON.arr p.1, p.2)
      else if c = 123 then
        match skipWs rest with
        | 125 :: r => some (JSON.obj [], r)
        | _ => (parseMembers fuel rest).map fun p => (JSON.obj p.1, p.2)
      else (parseNumber (c :: rest)).map fun p => (JSON.num p.1, p.2)
/-- Parse the elements of a non-empty array up to and including `]`. -/
def parseElements : Nat → List Nat → Option (List JSON × List Nat)
  | 0, _ => none
  | fuel + 1, input =>
    match parseValue fuel input with
    | none => none
    | some (v, r) =>
      match skipWs r with
      | 44 :: r1 => (parseElements fuel r1).map fun p => (v :: p.1, p.2)
      | 93 :: r1 => some ([v], r1)
      | _ => none
/-- Parse the members of a non-empty object up to and including `}`. -/
def parseMembers : Nat → List Nat → Option (List (JSString × JSON) × List Nat)
  | 0, _ => none
  | fuel + 1, input =>
    match skipWs input with
    | 34 :: r =>
      match parseStringBody r with
      | none => none
      | some (k, r1) =>
        match skipWs r1 with
        | 58 :: r2 =>
          match parseValue fuel r2 with
          | none => none
          | some (v, r3) =>
            match skipWs r3 with
            | 44 :: r4 => (parseMembers fuel r4).map fun p => ((k, v) :: p.1, p.2)
            | 125 :: r4 => some ([(k, v)], r4)
            | _ => none
        | _ => none
    | _ => none
end

/-- Embedding of `JSON.parse`: one value, then nothing but white space. -/
def JSON.parse (text : JSString) : Option JSON :=
  match parseValue (text.length + 1) text with
  | none => none
  | some (v, rest) => if skipWs rest = [] then some v else none

/-- Property access `data[key]` on a parsed value: of a repeated member the
last one counts; anything but an object has no such property. -/
def JSON.field (data : JSON) (key : JSString) : Option JSON :=
  match data with
  | .obj kvs => (kvs.reverse.find? fun kv => kv.1 == key).map fun kv => kv.2
  | _ => none

/-- The string held by a value, if it is one. -/
def JSON.asString : JSON → Option JSString
  | .str s => some s
  | _ => none

/-- The number held by a value, if it is one. -/
def JSON.asNumber : JSON → Option Nat
  | .num n => some n
  | _ => none

/-- The boolean held by a value, if it is one. -/
def JSON.asBool : JSON → Option Bool
  | .bool b => some b
  | _ => none

/-- The elements held by a value, if it is an array. -/
def JSON.asArray : JSON → Option (List JSON)
  | .arr xs => some xs
  | _ => none

/-- The strings held by the elements of an array, if all of them are strings. -/
def JSON.asStrings : List JSON → Option (List JSString)
  | [] => some []
  | x :: xs => x.asString.bind fun s => (JSON.asStrings xs).map fun ss => s :: ss

/-! ## Records -/

/-- Modelled from the spec: the `Block` value of the schema module
(`schema/block`, whose constructor is not in this file), as the record of the
attributes of the data model, which are the members `serializeBlock` writes. -/
structure Block where
  prev_hash : Buffer
  merkle_root : Buffer
  timestamp : Nat
  bits : Nat
  nonce : Nat
  version : Nat
  height : Nat
  size : Nat
  active : Bool
  chainWork : Buffer
  txs : List Buffer
  deriving DecidableEq

/-- Embedding of `serializeBlock(block)`. -/
def serializeBlock (block : Block) : JSString :=
  let data : JSON := .obj
    [ (str "prev_hash", .str block.prev_hash.toBinaryString),
      (str "merkle_root", .str block.merkle_root.toBinaryString),
      (str "timestamp", .num block.timestamp),
      (str "bits", .num block.bits),
      (str "nonce", .num block.nonce),
      (str "version", .num block.version),
      (str "height", .num block.height),
      (str "size", .num block.size),
      (str "active", .bool block.active),
      (str "chainWork", .str block.chainWork.toBinaryString),
      (str "txs", .arr (block.txs.map fun hash => .str hash.toBinaryString)) ]
  data.stringify

/-- Embedding of `deserializeBlock(data)`. The result is `none` when the text
is not JSON or when a member is missing or of another type than the one
`serializeBlock` writes (the source then throws or builds an ill-typed block). -/
def deserializeBlock (data : JSString) : Option Block :=
  (JSON.parse data).bind fun data =>
  ((data.field (str "prev_hash")).bind JSON.asString).bind fun prev_hash =>
  ((data.field (str "merkle_root")).bind JSON.asString).bind fun merkle_root =>
  ((data.field (str "chainWork")).bind JSON.asString).bind fun chainWork =>
  (((data.field (str "txs")).bind JSON.asArray).bind fun txs =>
      JSON.asStrings txs).bind fun txs =>
  ((data.field (str "timestamp")).bind JSON.asNumber).bind fun timestamp =>
  ((data.field (str "bits")).bind JSON.asNumber).bind fun bits =>
  ((data.field (str "nonce")).bind JSON.asNumber).bind fun nonce =>
  ((data.field (str "version")).bind JSON.asNumber).bind fun version =>
  ((data.field (str "height")).bind JSON.asNumber).bind fun height =>
  ((data.field (str "size")).bind JSON.asNumber).bind fun size =>
  ((data.field (str "active")).bind JSON.asBool).map fun active =>
    { prev_hash := Buffer.ofBinaryString prev_hash,
      merkle_root := Buffer.ofBinaryString merkle_root,
      timestamp := timestamp, bits := bits, nonce := nonce, version := version,
      height := height, size := size, active := active,
      chainWork := Buffer.ofBinaryString chainWork,
      txs := txs.map Buffer.ofBinaryString }

/-- Modelled from the spec: the transaction schema the store calls out to
(`schema/transaction` and `connection`, not in this file): the canonical
serialization of a transaction, its identity hash, and the payload parser
(`Connection.parseTx` followed by the `Transaction` constructor), which fails
on bytes that are not a transaction. -/
structure TxSchema (Transaction : Type) where
  serialize : Transaction → Buffer
  getHash : Transaction → Buffer
  parseTx : Buffer → Option Transaction

/-- Embedding of `serializeTransaction(tx)`. -/
def serializeTransaction {Transaction : Type} (schema : TxSchema Transaction)
    (tx : Transaction) : JSString :=
  (schema.serialize tx).toBinaryString

/-- Embedding of `deserializeTransaction(data)`; `none` when the parser throws. -/
def deserializeTransaction {Transaction : Type} (schema : TxSchema Transaction)
    (data : JSString) : Option Transaction :=
  schema.parseTx (Buffer.ofBinaryString data)

/-! ## The storage engine -/

/-- Errors: those the engine reports and those the store raises. -/
inductive Error where
  | io (code : Nat)
  | emptyStore
  | notImplemented
  | malformedRecord
  | typeError
  deriving DecidableEq, Repr

/-- How an asynchronous operation ends: `callback(null, result)`,
`callback(err)`, or an exception that escapes without the callback being
invoked. -/
inductive Completion (α : Type) where
  | ok (result : α)
  | error (err : Error)
  | thrown (exn : Error)
  deriving DecidableEq, Repr

/-- Modelled from the spec: one table of the key-value engine (the
`tokyocabinet` binding, not in this file): its records (at most one per key is
ever looked up: the first) and the fault the engine currently reports for it. -/
structure Table where
  entries : List (JSString × JSString)
  fault : Option Error
  deriving DecidableEq

/-- Modelled from the spec: a table without records and without fault. -/
def Table.empty : Table := { entries := [], fault := none }

/-- Modelled from the spec: the record a table holds under a key. -/
def Table.find (t : Table) (key : JSString) : Option JSString := t.entries.lookup key

/-- Modelled from the spec: engine `get(key, callback)`: the error, or the
value (absent on a miss, which is not an error). -/
def Table.get (t : Table) (key : JSString) : Except Error (Option JSString) :=
  match t.fault with
  | some err => .error err
  | none => .ok (t.find key)

/-- Modelled from the spec: engine `putAsync(key, value, callback)`: the table
afterwards and the error passed to the callback. A failed write changes
nothing; a successful one replaces the record of the key. -/
def Table.put (t : Table) (key value : JSString) : Table × Option Error :=
  match t.fault with
  | some err => (t, some err)
  | none => ({ t with entries := (key, value) :: t.entries.filter fun kv => kv.1 != key }, none)

/-- Modelled from the spec: engine `getBulk(keys, callback)`: the error, or an
object holding the records of those requested keys that are present. -/
def Table.getBulk (t : Table) (keys : List JSString) :
    Except Error (List (JSString × JSString)) :=
  match t.fault with
  | some err => .error err
  | none => .ok (keys.filterMap fun k => (t.find k).map fun v => (k, v))

/-- Modelled from the spec: engine `setBulk(map, callback)`: every member of
the object is written. -/
def Table.setBulk (t : Table) (map : List (JSString × JSString)) : Table × Option Error :=
  match t.fault with
  | some err => (t, some err)
  | none => (map.foldl (fun acc kv => (acc.put kv.1 kv.2).1) t, none)

/-- Modelled from the spec: engine `vanishAsync(callback)`: remove every record. -/
def Table.vanish (t : Table) : Table × Option Error :=
  match t.fault with
  | some err => (t, some err)
  | none => ({ t with entries := [] }, none)

/-- Modelled from the spec: the greatest key of a list under the byte-wise
order, which is where the ordered table ends. -/
def maxKey : List JSString → Option JSString
  | [] => none
  | k :: ks =>
    match maxKey ks with
    | none => some k
    | some m => if keyLt m k then some k else some m

/-- Modelled from the spec: a cursor of the ordered table: the table and the
key it stands on. -/
structure Cursor where
  table : Table
  position : Option JSString

/-- Modelled from the spec: engine `cursor()`: a cursor not positioned yet. -/
def Table.cursor (t : Table) : Cursor := { table := t, position := none }

/-- Modelled from the spec: engine `cursor.jumpBack(callback)`: move to the
last record in key order; the error `EmptyStore` when there is none. -/
def Cursor.jumpBack (c : Cursor) : Cursor × Option Error :=
  match c.table.fault with
  | some err => (c, some err)
  | none =>
    match maxKey (c.table.entries.map Prod.fst) with
    | none => (c, some Error.emptyStore)
    | some k => ({ c with position := some k }, none)

/-- Modelled from the spec: engine `cursor.get(callback)`: the value and the
key of the record under the cursor. -/
def Cursor.get (c : Cursor) : Except Error (JSString × JSString) :=
  match c.table.fault with
  | some err => .error err
  | none =>
    match c.position with
    | none => .error Error.emptyStore
    | some k =>
      match c.table.find k with
      | none => .error Error.emptyStore
      | some v => .ok (v, k)

/-- The tables the store operations use. -/
inductive TableId where
  | hBlock
  | hTransaction
  | hBlockPrevIndex
  | bBlockHeightIndex
  deriving DecidableEq, Repr

/-- A write request sent to the engine. -/
inductive Request where
  | put (table : TableId) (key value : JSString)
  | setBulk (table : TableId) (map : List (JSString × JSString))
  | vanish (table : TableId)
  deriving DecidableEq

/-- The state of the store: its tables, and the journal of the write requests
sent so far, oldest first, each with the error the engine answered. -/
structure Store where
  hBlock : Table
  hTransaction : Table
  hBlockPrevIndex : Table
  bBlockHeightIndex : Table
  journal : List (Request × Option Error)

/-- The store right after the tables were created. -/
def Store.empty : Store :=
  { hBlock := Table.empty, hTransaction := Table.empty, hBlockPrevIndex := Table.empty,
    bBlockHeightIndex := Table.empty, journal := [] }

/-- The table behind a handle. -/
def Store.table (s : Store) : TableId → Table
  | .hBlock => s.hBlock
  | .hTransaction => s.hTransaction
  | .hBlockPrevIndex => s.hBlockPrevIndex
  | .bBlockHeightIndex => s.bBlockHeightIndex

/-- Replace the table behind a handle. -/
def Store.setTable (s : Store) (id : TableId) (t : Table) : Store :=
  match id with
  | .hBlock => { s with hBlock := t }
  | .hTransaction => { s with hTransaction := t }
  | .hBlockPrevIndex => { s with hBlockPrevIndex := t }
  | .bBlockHeightIndex => { s with bBlockHeightIndex := t }

/-- Send `putAsync` to a table and wait for its callback. -/
def Store.putAsync (s : Store) (id : TableId) (key value : JSString) : Store × Option Error :=
  let r := (s.table id).put key value
  ({ s.setTable id r.1 with journal := s.journal ++ [(Request.put id key value, r.2)] }, r.2)

/-- Send `setBulk` to a table and wait for its callback. -/
def Store.setBulk (s : Store) (id : TableId) (map : List (JSString × JSString)) :
    Store × Option Error :=
  let r := (s.table id).setBulk map
  ({ s.setTable id r.1 with journal := s.journal ++ [(Request.setBulk id map, r.2)] }, r.2)

/-- Send `vanishAsync` to a table and wait for its callback. -/
def Store.vanishAsync (s : Store) (id : TableId) : Store × Option Error :=
  let r := (s.table id).vanish
  ({ s.setTable id r.1 with journal := s.journal ++ [(Request.vanish id, r.2)] }, r.2)

/-! ## Store operations

The functions of `step` run one after the other; a step that finds `err` set
throws it, `step` hands a thrown error to the next step, and so the error
reaches the final callback without any later request being sent. -/

/-- A hash argument as the lookups accept it: a `Buffer`, or a binary string. -/
inductive HashRef where
  | buffer (b : Buffer)
  | string (s : JSString)
  deriving DecidableEq

/-- The normalisation `if (Buffer.isBuffer(hash)) hash = hash.toString('binary')`. -/
def HashRef.toKey : HashRef → JSString
  | .buffer b => b.toBinaryString
  | .string s => s

/-- JavaScript truthiness of a string: it is not empty. -/
def truthy (s : JSString) : Bool := !s.isEmpty

/-- Embedding of `emptyDatabase(callback)`. -/
def emptyDatabase (s : Store) : Store × Completion Unit :=
  match s.vanishAsync .hBlock with
  | (s1, some err) => (s1, .error err)
  | (s1, none) =>
    match s1.vanishAsync .hTransaction with
    | (s2, some err) => (s2, .error err)
    | (s2, none) =>
      match s2.vanishAsync .bBlockHeightIndex with
      | (s3, some err) => (s3, .error err)
      | (s3, none) => (s3, .ok ())

/-- Embedding of `saveBlock(block, callback)`; `getHash` is the identity hash
of the schema module (`block.getHash()`). -/
def saveBlock (getHash : Block → Buffer) (s : Store) (block : Block) : Store × Completion Unit :=
  let hash := (getHash block).toBinaryString
  let data := serializeBlock block
  match s.putAsync .hBlock hash data with
  | (s1, some err) => (s1, .error err)
  | (s1, none) =>
    let height := formatHeightKey block.height
    match s1.putAsync .bBlockHeightIndex height hash with
    | (s2, some err) => (s2, .error err)
    | (s2, none) =>
      let prevHash := block.prev_hash.toBinaryString
      match s2.putAsync .hBlockPrevIndex prevHash hash with
      | (s3, some err) => (s3, .error err)
      | (s3, none) => (s3, .ok ())

/-- Embedding of `saveTransaction(tx, callback)`. -/
def saveTransaction {Transaction : Type} (schema : TxSchema Transaction) (s : Store)
    (tx : Transaction) : Store × Completion Unit :=
  let hash := (schema.getHash tx).toBinaryString
  let data := serializeTransaction schema tx
  match s.putAsync .hTransaction hash data with
  | (s1, some err) => (s1, .error err)
  | (s1, none) => (s1, .ok ())

/-- Assignment `map[key] = value` on an object: an existing member keeps its
place and takes the new value, a new member goes last. -/
def objectSet (map : List (JSString × JSString)) (key value : JSString) :
    List (JSString × JSString) :=
  match map with
  | [] => [(key, value)]
  | kv :: rest => if kv.1 == key then (key, value) :: rest else kv :: objectSet rest key value

/-- Embedding of `saveTransactions(txs, callback)`. -/
def saveTransactions {Transaction : Type} (schema : TxSchema Transaction) (s : Store)
    (txs : List Transaction) : Store × Completion Unit :=
  let txMap := txs.foldl
    (fun txMap tx =>
      objectSet txMap (schema.getHash tx).toBinaryString (serializeTransaction schema tx)) []
  match s.setBulk .hTransaction txMap with
  | (s1, some err) => (s1, .error err)
  | (s1, none) => (s1, .ok ())

/-- Embedding of `getTransactionByHash(hash, callback)`: the engine's error is
not looked at, and the value is decoded whether or not there is one. -/
def getTransactionByHash {Transaction : Type} (schema : TxSchema Transaction) (s : Store)
    (hash : HashRef) : Completion Transaction :=
  let hash := hash.toKey
  match s.hTransaction.get hash with
  | .error _ => .thrown Error.typeError
  | .ok none => .thrown Error.typeError
  | .ok (some data) =>
    match deserializeTransaction schema data with
    | none => .thrown Error.malformedRecord
    | some tx => .ok tx

/-- The loop of `getTransactionsByHashes`: decode, in the order of `hashes`,
the truthy values the response holds; `none` when a decode throws. -/
def collectTransactions {Transaction : Type} (schema : TxSchema Transaction)
    (txs : List (JSString × JSString)) : List JSString → Option (List Transaction)
  | [] => some []
  | hash :: rest =>
    match txs.lookup hash with
    | none => collectTransactions schema txs rest
    | some tx =>
      if truthy tx then
        (deserializeTransaction schema tx).bind fun t =>
          (collectTransactions schema txs rest).map fun ts => t :: ts
      else collectTransactions schema txs rest

/-- Embedding of `getTransactionsByHashes(hashes, callback)`. -/
def getTransactionsByHashes {Transaction : Type} (schema : TxSchema Transaction) (s : Store)
    (hashes : List HashRef) : Completion (List Transaction) :=
  let hashes := hashes.map HashRef.toKey
  match s.hTransaction.getBulk hashes with
  | .error err => .error err
  | .ok txs =>
    match collectTransactions schema txs hashes with
    | none => .thrown Error.malformedRecord
    | some txArray => .ok txArray

/-- Embedding of `getBlockByHash(hash, callback)`: `none` stands for the
falsy value handed over when there is no record. -/
def getBlockByHash (s : Store) (hash : HashRef) : Completion (Option Block) :=
  let hash := hash.toKey
  match s.hBlock.get hash with
  | .error err => .error err
  | .ok none => .ok none
  | .ok (some data) =>
    if truthy data then
      match deserializeBlock data with
      | none => .thrown Error.malformedRecord
      | some block => .ok (some block)
    else .ok none

/-- The loop of `getBlocksByHashes`: decode, in the order of `hashes`, the
truthy values the response holds; `none` when a decode throws. -/
def collectBlocks (blocks : List (JSString × JSString)) : List JSString → Option (List Block)
  | [] => some []
  | hash :: rest =>
    match blocks.lookup hash with
    | none => collectBlocks blocks rest
    | some block =>
      if truthy block then
        (deserializeBlock block).bind fun b =>
          (collectBlocks blocks rest).map fun bs => b :: bs
      else collectBlocks blocks rest

/-- Embedding of `getBlocksByHashes(hashes, callback)`. -/
def getBlocksByHashes (s : Store) (hashes : List HashRef) : Completion (List Block) :=
  let hashes := hashes.map HashRef.toKey
  match s.hBlock.getBulk hashes with
  | .error err => .error err
  | .ok blocks =>
    match collectBlocks blocks hashes with
    | none => .thrown Error.malformedRecord
    | some blocksArray => .ok blocksArray

/-- Embedding of `getBlocksByHeights(heights, callback)`. -/
def getBlocksByHeights (s : Store) (heights : List ℚ) : Completion (List Block) :=
  let heights := heights.map fun height => formatHeightKey height
  match s.bBlockHeightIndex.getBulk heights with
  | .error err => .error err
  | .ok map =>
    let hashes := heights.filterMap fun height =>
      match map.lookup height with
      | none => none
      | some hash => if truthy hash then some hash else none
    getBlocksByHashes s (hashes.map HashRef.string)

/-- Embedding of `getBlockByHeight(height, callback)`. -/
def getBlockByHeight (s : Store) (height : ℚ) : Completion (Option Block) :=
  let height := formatHeightKey height
  match s.bBlockHeightIndex.get height with
  | .error err => .error err
  | .ok none => .ok none
  | .ok (some result) =>
    if truthy result then getBlockByHash s (.string result) else .ok none

/-- What `getBlockByPrev` accepts: a block object carrying its hash, or a hash. -/
inductive BlockRef where
  | object (hash : HashRef)
  | hash (hash : HashRef)

/-- Embedding of `getBlockByPrev(block, callback)`. -/
def getBlockByPrev (s : Store) (block : BlockRef) : Completion (Option Block) :=
  let block : HashRef :=
    match block with
    | .object hash => hash
    | .hash hash => hash
  let block := block.toKey
  match s.hBlockPrevIndex.get block with
  | .error err => .error err
  | .ok none => .ok none
  | .ok (some data) =>
    if truthy data then getBlockByHash s (.string data) else .ok none

/-- Embedding of `getTopBlock(callback)`. -/
def getTopBlock (s : Store) : Completion (Option Block) :=
  let cursor := s.bBlockHeightIndex.cursor
  match cursor.jumpBack with
  | (_, some err) => .error err
  | (cursor, none) =>
    match cursor.get with
    | .error err => .error err
    | .ok (hash, _) => getBlockByHash s (.string hash)

/-- The `forEach` body of `getBlockByLocator`. -/
def higher (highest : Option Block) (block : Block) : Option Block :=
  if block.active &&
      (match highest with
       | none => true
       | some h => decide (block.height > h.height))
  then some block else highest

/-- Embedding of `getBlockByLocator(locator, callback)`. -/
def getBlockByLocator (s : Store) (locator : List HashRef) : Completion (Option Block) :=
  match getBlocksByHashes s locator with
  | .error err => .error err
  | .thrown exn => .thrown exn
  | .ok blocks => .ok (blocks.foldl higher none)

/-- Embedding of `countConflictingTransactions(srcOutCondList, callback)`. -/
def countConflictingTransactions {α : Type} (_srcOutCondList : α) : Completion Nat :=
  .ok 0

/-- Embedding of `getConflictingTransactions(srcOutCondList, callback)`. -/
def getConflictingTransactions {α β : Type} (_srcOutCondList : α) : Completion β :=
  .thrown Error.notImplemented

/-- Embedding of `knowsBlock(hash, callback)`. -/
def knowsBlock (s : Store) (hash : HashRef) : Completion Bool :=
  match getBlockByHash s hash with
  | .error err => .error err
  | .thrown exn => .thrown exn
  | .ok block => .ok block.isSome

/-- Embedding of `knowsTransaction(hash, callback)`. -/
def knowsTransaction {Transaction : Type} (schema : TxSchema Transaction) (s : Store)
    (hash : HashRef) : Completion Bool :=
  match getTransactionByHash schema s hash with
  | .error err => .error err
  | .thrown exn => .thrown exn
  | .ok _ => .ok true

/-! ## Notions used in the statements -/

/-- The block stored under a key: the decoded record, if there is one. -/
def storedBlock (s : Store) (key : JSString) : Option Block :=
  (s.hBlock.find key).bind deserializeBlock

/-- The transaction stored under a key: the decoded record, if there is one. -/
def storedTransaction {Transaction : Type} (schema : TxSchema Transaction) (s : Store)
    (key : JSString) : Option Transaction :=
  (s.hTransaction.find key).bind (deserializeTransaction schema)

/-- The block `b` is stored under one of the hashes of the locator and is active. -/
def ActiveCandidate (s : Store) (locator : List HashRef) (b : Block) : Prop :=
  (∃ k ∈ locator, storedBlock s k.toKey = some b) ∧ b.active = true

/-! ## Example data -/

/-- A toy identity hash of 32 bytes: 31 zero bytes and the low byte of the nonce. -/
def exampleHash (b : Block) : Buffer := List.replicate 31 0 ++ [toByte b.nonce]

/-- An active block at height 3. -/
def blockX : Block :=
  { prev_hash := List.replicate 32 0, merkle_root := [1, 2, 3], timestamp := 1300000000,
    bits := 486604799, nonce := 1, version := 1, height := 3, size := 215, active := true,
    chainWork := [4, 0, 255], txs := [[7, 7], [0, 34, 92]] }

/-- An active block at height 7. -/
def blockY : Block := { blockX with nonce := 2, height := 7, prev_hash := exampleHash blockX }

/-- An inactive block at height 7. -/
def blockZ : Block := { blockY with nonce := 3, active := false, txs := [] }

/-- A store whose block table holds `blockX` and `blockZ` under their hashes,
and whose transaction table holds one payload. -/
def exampleStore : Store :=
  { hBlock :=
      { entries := [((exampleHash blockX).toBinaryString, serializeBlock blockX),
                    ((exampleHash blockZ).toBinaryString, serializeBlock blockZ)],
        fault := none },
    hTransaction := { entries := [([9, 9], [1, 0, 0, 0])], fault := none },
    hBlockPrevIndex := Table.empty,
    bBlockHeightIndex := Table.empty,
    journal := [] }

/-- A toy transaction schema: a transaction is its payload, its hash the
first two bytes, and the empty payload does not parse. -/
def exampleSchema : TxSchema Buffer :=
  { serialize := fun tx => tx,
    getHash := fun tx => tx.take 2,
    parseTx := fun payload => if payload = [] then none else some payload }

/-- A request naming the three example blocks and the example transaction. -/
def exampleKeys : List HashRef :=
  [HashRef.buffer (exampleHash blockX), HashRef.buffer (exampleHash blockY),
    HashRef.buffer (exampleHash blockZ), HashRef.string [9, 9]]

/-- A store whose block table holds the three example blocks. -/
def exampleChain : Store :=
  { hBlock :=
      { entries := [((exampleHash blockX).toBinaryString, serializeBlock blockX),
                    ((exampleHash blockY).toBinaryString, serializeBlock blockY),
                    ((exampleHash blockZ).toBinaryString, serializeBlock blockZ)],
        fault := none },
    hTransaction := Table.empty,
    hBlockPrevIndex := Table.empty,
    bBlockHeightIndex := Table.empty,
    journal := [] }

/-- Save the blocks of a list one after the other. -/
def saveBlocks (getHash : Block → Buffer) (s : Store) (blocks : List Block) : Store :=
  blocks.foldl (fun s block => (saveBlock getHash s block).1) s

/-- Index integrity: every hash the height index or the prev-hash index holds
as a value is a key of the block table. -/
def IndexIntegrity (s : Store) : Prop :=
  (∀ k h, s.bBlockHeightIndex.find k = some h → (s.hBlock.find h).isSome = true) ∧
  (∀ k h, s.hBlockPrevIndex.find k = some h → (s.hBlock.find h).isSome = true)

/-- The empty store with a block table that reports an I/O error. -/
def blockTableDown : Store :=
  { Store.empty with hBlock := { entries := [], fault := some (Error.io 5) } }

/-- The empty store with a height index that reports an I/O error. -/
def heightIndexDown : Store :=
  { Store.empty with bBlockHeightIndex := { entries := [], fault := some (Error.io 6) } }

/-- What the blocks of `bs`, saved so far, leave in the store: no table is at
fault, the height index holds exactly the keys of their heights, each with the
hash of one of them, and the block table holds under each of their hashes the
record of a block of that hash. -/
def SavedBlocks (getHash : Block → Buffer) (s : Store) (bs : List Block) : Prop :=
  s.hBlock.fault = none ∧ s.bBlockHeightIndex.fault = none ∧ s.hBlockPrevIndex.fault = none ∧
  (∀ k v, s.bBlockHeightIndex.find k = some v →
    ∃ b ∈ bs, k = formatHeightKey b.height ∧ v = (getHash b).toBinaryString) ∧
  (∀ b ∈ bs, (s.bBlockHeightIndex.find (formatHeightKey b.height)).isSome = true) ∧
  (∀ b ∈ bs, ∃ b1 ∈ bs, s.hBlock.find (getHash b).toBinaryString = some (serializeBlock b1) ∧
    getHash b1 = getHash b)

/-- Example blocks at the heights 1, 2 and 9. -/
def block1 : Block := { blockX with nonce := 11, height := 1 }

/-- The example block at height 2. -/
def block2 : Block := { blockX with nonce := 12, height := 2, prev_hash := exampleHash block1 }

/-- The example block at height 9. -/
def block9 : Block := { blockX with nonce := 19, height := 9 }

/-- A small block with bytes that need escaping in JSON text. -/
def blockSmall : Block :=
  { prev_hash := [0, 34, 255], merkle_root := [92, 10], timestamp := 1300000000,
    bits := 486604799, nonce := 0, version := 1, height := 7, size := 215, active := false,
    chainWork := [], txs := [[65], [66, 31]] }

/-! ## Read requests -/

/-- A read request sent to the engine. -/
inductive ReadRequest where
  | get (table : TableId) (key : JSString)
  | getBulk (table : TableId) (keys : List JSString)
  | jumpBack (table : TableId)
  | cursorGet (table : TableId)
  deriving DecidableEq

/-- The read requests `getBlockByHash(hash, callback)` sends: one `get`. -/
def getBlockByHashReads (hash : HashRef) : List ReadRequest :=
  [ReadRequest.get .hBlock hash.toKey]

/-- The read requests `getTopBlock(callback)` sends to the engine, in the
order it sends them, following its steps: `jumpBack`; if that reported no
error, `cursor.get`; if that reported none either, the `get` of
`getBlockByHash`. -/
def getTopBlockReads (s : Store) : List ReadRequest :=
  let cursor := s.bBlockHeightIndex.cursor
  ReadRequest.jumpBack .bBlockHeightIndex ::
    match cursor.jumpBack with
    | (_, some _) => []
    | (cursor, none) =>
      ReadRequest.cursorGet .bBlockHeightIndex ::
        match cursor.get with
        | .error _ => []
        | .ok (hash, _) => getBlockByHashReads (.string hash)

/-! ## Further example data -/

/-- The empty store with a transaction table that reports an I/O error. -/
def transactionTableDown : Store :=
  { Store.empty with hTransaction := { entries := [], fault := some (Error.io 7) } }

/-- An active block at height 7 other than `blockY`. -/
def blockY2 : Block := { blockY with nonce := 4, merkle_root := [9] }

/-- A store whose block table holds `blockX`, `blockY` and `blockY2`: two
active blocks at height 7. -/
def exampleFork : Store :=
  { hBlock :=
      { entries := [((exampleHash blockX).toBinaryString, serializeBlock blockX),
                    ((exampleHash blockY).toBinaryString, serializeBlock blockY),
                    ((exampleHash blockY2).toBinaryString, serializeBlock blockY2)],
        fault := none },
    hTransaction := Table.empty,
    hBlockPrevIndex := Table.empty,
    bBlockHeightIndex := Table.empty,
    journal := [] }

/-- An example block at height 0. -/
def block0 : Block := { blockX with nonce := 20, height := 0 }

/-- An example block at height `2^32`. -/
def blockWrap : Block := { blockX with nonce := 21, height := 4294967296 }

/-- The specification of `getBlocksByHeights` in the words of its claim: the
heights mapped through `getBlockByHeight`, with the null results removed. -/
def blocksByHeightsSpec (s : Store) (heights : List ℚ) : List Block :=
  heights.filterMap fun height =>
    match getBlockByHeight s height with
    | .ok (some block) => some block
    | _ => none

/-- Every record of the block table decodes. -/
def BlockRecordsDecode (s : Store) : Prop :=
  ∀ k d, s.hBlock.find k = some d → (deserializeBlock d).isSome = true

/-! ## Theorems

### JSON strings -/
theorem hexVal_hexDigit (d : Nat) (h : d < 16) : hexVal (hexDigit d) = some d := by
  interval_cases d <;> rfl

theorem hex4_control (c : Nat) (h : c < 32) :
    hex4 48 48 (hexDigit (c / 16)) (hexDigit (c % 16)) = some c := by
  have h1 : hexVal (hexDigit (c / 16)) = some (c / 16) := hexVal_hexDigit _ (by omega)
  have h2 : hexVal (hexDigit (c % 16)) = some (c % 16) := hexVal_hexDigit _ (by omega)
  have h0 : hexVal 48 = some 0 := rfl
  simp only [hex4, h0, h1, h2, Option.some_bind, Option.map_some', Option.some.injEq]
  omega

theorem parseStringBody_cons (c : Nat) (rest : List Nat) (h1 : c ≠ 34) (h2 : c ≠ 92) :
    parseStringBody (c :: rest) =
      if c < 32 then none else (parseStringBody rest).map fun p => (c :: p.1, p.2) := by
  rw [parseStringBody.eq_def]
  simp [h1, h2]

theorem parseStringBody_escape (e : Nat) (rest : List Nat) (h : e ≠ 117) :
    parseStringBody (92 :: e :: rest) =
      (unescape e).bind fun u => (parseStringBody rest).map fun p => (u :: p.1, p.2) := by
  rw [parseStringBody.eq_def]
  simp [h]

theorem parseStringBody_unicode (a b c d : Nat) (rest : List Nat) :
    parseStringBody (92 :: 117 :: a :: b :: c :: d :: rest) =
      (hex4 a b c d).bind fun u => (parseStringBody rest).map fun p => (u :: p.1, p.2) := by
  rw [parseStringBody.eq_def]
  simp

theorem parseStringBody_close (rest : List Nat) :
    parseStringBody (34 :: rest) = some ([], rest) := by
  rw [parseStringBody.eq_def]
  simp

theorem parseStringBody_quoteChar (c : Nat) (tail : List Nat) :
    parseStringBody (quoteChar c ++ tail) =
      (parseStringBody tail).map fun p => (c :: p.1, p.2) := by
  unfold quoteChar
  split_ifs with h1 h2 h3 h4 h5 h6 h7 h8
  · subst h1; simp [parseStringBody_escape, unescape]
  · subst h2; simp [parseStringBody_escape, unescape]
  · subst h3; simp [parseStringBody_escape, unescape]
  · subst h4; simp [parseStringBody_escape, unescape]
  · subst h5; simp [parseStringBody_escape, unescape]
  · subst h6; simp [parseStringBody_escape, unescape]
  · subst h7; simp [parseStringBody_escape, unescape]
  · simp [parseStringBody_unicode, hex4_control c h8]
  · simp [parseStringBody_cons c tail h1 h2, h8]

theorem parseStringBody_quoteBody (s : JSString) (rest : List Nat) :
    parseStringBody (quoteBody s ++ 34 :: rest) = some (s, rest) := by
  induction s with
  | nil => simp [quoteBody, parseStringBody_close]
  | cons c cs ih =>
    rw [quoteBody, List.append_assoc, parseStringBody_quoteChar, ih]
    rfl

/-! ### JSON numbers -/
theorem digitsAux_acc (fuel n : Nat) (acc : List Nat) :
    digitsAux fuel n acc = digitsAux fuel n [] ++ acc := by
  induction fuel generalizing n acc with
  | zero => simp [digitsAux]
  | succ f ih =>
    unfold digitsAux
    split_ifs with h
    · simp
    · rw [ih (n / 10) ((48 + n % 10) :: acc), ih (n / 10) [48 + n % 10]]
      simp

/-- What the digit loop of the parser computes on a run of digits. -/
theorem parseDigits_append (ds rest : List Nat) (acc : Nat)
    (hds : ∀ c ∈ ds, isDigit c = true) (hrest : ∀ d ∈ rest.head?, isDigit d = false) :
    parseDigits acc (ds ++ rest) = (ds.foldl (fun a c => a * 10 + (c - 48)) acc, rest) := by
  induction ds generalizing acc with
  | nil =>
    cases rest with
    | nil => rfl
    | cons d r =>
      have := hrest d (by simp)
      simp [parseDigits, this]
  | cons c cs ih =>
    have hc := hds c (by simp)
    simp only [List.cons_append, parseDigits, hc, if_true, List.foldl_cons]
    exact ih _ (fun x hx => hds x (by simp [hx]))

theorem digitsAux_spec (fuel n : Nat) (h : n < fuel) :
    (∀ c ∈ digitsAux fuel n [], isDigit c = true) ∧
    (digitsAux fuel n []).foldl (fun a c => a * 10 + (c - 48)) 0 = n ∧
    (∃ c r, digitsAux fuel n [] = c :: r ∧ (c = 48 → n = 0 ∧ r = []) ∧ 48 ≤ c ∧ c ≤ 57) := by
  induction fuel generalizing n with
  | zero => omega
  | succ f ih =>
    unfold digitsAux
    split_ifs with h10
    · refine ⟨?_, ?_, ⟨48 + n, [], rfl, ?_, ?_, ?_⟩⟩
      · intro c hc
        simp only [List.mem_singleton] at hc
        subst hc
        simp [isDigit]; omega
      · simp
      · intro h0; constructor
        · omega
        · rfl
      · omega
      · omega
    · have hlt : n / 10 < f := by omega
      obtain ⟨i1, i2, c, r, i3, i4, i5, i6⟩ := ih (n / 10) hlt
      rw [digitsAux_acc]
      refine ⟨?_, ?_, ⟨c, r ++ [48 + n % 10], ?_, ?_, i5, i6⟩⟩
      · intro x hx
        simp only [List.mem_append, List.mem_singleton] at hx
        rcases hx with hx | hx
        · exact i1 x hx
        · subst hx; simp [isDigit]; omega
      · rw [List.foldl_append, i2]
        simp
        omega
      · rw [i3]; rfl
      · intro h0
        have := (i4 h0).1
        omega

/-- The text after a value does not continue a number literal. -/
def Delim (rest : List Nat) : Prop :=
  ∀ d ∈ rest.head?, isDigit d = false ∧ d ≠ 46 ∧ d ≠ 101 ∧ d ≠ 69

/-- Parsing the text of `v` gives `v` back and leaves what follows the text,
whenever the fuel is at least `c`. -/
def RoundTrips (v : JSON) (c : Nat) : Prop :=
  ∀ fuel rest, c ≤ fuel → Delim rest → parseValue fuel (v.stringify ++ rest) = some (v, rest)

theorem RoundTrips.mono {v : JSON} {c c1 : Nat} (h : RoundTrips v c) (hc : c ≤ c1) :
    RoundTrips v c1 :=
  fun fuel rest hf hd => h fuel rest (le_trans hc hf) hd

theorem delim_nil : Delim [] := by
  intro d hd; simp at hd

theorem delim_cons (d : Nat) (r : List Nat) (h : d = 44 ∨ d = 93 ∨ d = 125) : Delim (d :: r) := by
  intro x hx
  simp only [List.head?_cons, Option.mem_def, Option.some.injEq] at hx
  subst hx
  rcases h with rfl | rfl | rfl <;> decide

theorem parseValue_succ (fuel : Nat) (c : Nat) (rest : List Nat) (hc : isWs c = false) :
    parseValue (fuel + 1) (c :: rest) =
      if c = 34 then (parseStringBody rest).map fun p => (JSON.str p.1, p.2)
      else if c = 116 then
        match rest with
        | 114 :: 117 :: 101 :: r => some (JSON.bool true, r)
        | _ => none
      else if c = 102 then
        match rest with
        | 97 :: 108 :: 115 :: 101 :: r => some (JSON.bool false, r)
        | _ => none
      else if c = 110 then
        match rest with
        | 117 :: 108 :: 108 :: r => some (JSON.null, r)
        | _ => none
      else if c = 91 then
        match skipWs rest with
        | 93 :: r => some (JSON.arr [], r)
        | _ => (parseElements fuel rest).map fun p => (JSON.arr p.1, p.2)
      else if c = 123 then
        match skipWs rest with
        | 125 :: r => some (JSON.obj [], r)
        | _ => (parseMembers fuel rest).map fun p => (JSON.obj p.1, p.2)
      else (parseNumber (c :: rest)).map fun p => (JSON.num p.1, p.2) := by
  rw [parseValue]
  simp only [skipWs, hc]
  rfl

theorem roundTrips_str (s : JSString) : RoundTrips (.str s) 1 := by
  intro fuel rest hf _
  obtain ⟨f, rfl⟩ := Nat.exists_eq_add_of_le hf
  rw [Nat.add_comm, JSON.stringify, quote, List.cons_append, parseValue_succ _ _ _ (by decide)]
  simp [parseStringBody_quoteBody]

theorem roundTrips_bool (b : Bool) : RoundTrips (.bool b) 1 := by
  intro fuel rest hf _
  obtain ⟨f, rfl⟩ := Nat.exists_eq_add_of_le hf
  cases b
  · rw [Nat.add_comm, JSON.stringify]
    simp only [Bool.false_eq_true, if_false, List.cons_append, List.nil_append]
    rw [parseValue_succ _ _ _ (by decide)]
    simp
  · rw [Nat.add_comm, JSON.stringify]
    simp only [if_true, List.cons_append, List.nil_append]
    rw [parseValue_succ _ _ _ (by decide)]
    simp

theorem roundTrips_null : RoundTrips .null 1 := by
  intro fuel rest hf _
  obtain ⟨f, rfl⟩ := Nat.exists_eq_add_of_le hf
  rw [Nat.add_comm, JSON.stringify]
  simp only [List.cons_append, List.nil_append]
  rw [parseValue_succ _ _ _ (by decide)]
  simp

theorem numberEnd_delim (n : Nat) (rest : List Nat) (h : Delim rest) :
    numberEnd n rest = some (n, rest) := by
  cases rest with
  | nil => rfl
  | cons d r =>
    have := h d (by simp)
    simp [numberEnd, this.2.1, this.2.2.1, this.2.2.2]

theorem parseNumber_numberToString (n : Nat) (rest : List Nat) (h : Delim rest) :
    parseNumber (numberToString n ++ rest) = some (n, rest) ∧
    ∃ c r, numberToString n = c :: r ∧ 48 ≤ c ∧ c ≤ 57 := by
  obtain ⟨h1, h2, c, r, h3, h4, h5, h6⟩ := digitsAux_spec (n + 1) n (Nat.lt_succ_self n)
  refine ⟨?_, c, r, h3, h5, h6⟩
  unfold numberToString
  rw [h3] at h1 h2
  rw [h3, List.cons_append, parseNumber]
  by_cases hc : c = 48
  · obtain ⟨rfl, rfl⟩ := h4 hc
    subst hc
    simp [numberEnd_delim _ _ h]
  · have hd : ∀ x ∈ rest.head?, isDigit x = false := fun x hx => (h x hx).1
    have hr : ∀ x ∈ r, isDigit x = true := fun x hx => h1 x (by simp [hx])
    rw [parseDigits_append r rest _ hr hd]
    simp only [List.foldl_cons, Nat.zero_mul, Nat.zero_add] at h2
    simp [hc, h2, numberEnd_delim _ _ h]
    omega

theorem roundTrips_num (n : Nat) : RoundTrips (.num n) 1 := by
  intro fuel rest hf hd
  obtain ⟨f, rfl⟩ := Nat.exists_eq_add_of_le hf
  obtain ⟨h1, c, r, h2, h3, h4⟩ := parseNumber_numberToString n rest hd
  have hws : isWs c = false := by
    simp [isWs]; omega
  rw [Nat.add_comm, JSON.stringify]
  rw [h2] at h1 ⊢
  rw [List.cons_append, parseValue_succ _ _ _ hws]
  rw [List.cons_append] at h1
  rw [if_neg (by omega), if_neg (by omega), if_neg (by omega), if_neg (by omega), if_neg (by omega),
    if_neg (by omega), h1]
  rfl


theorem parseElements_succ (fuel : Nat) (input : List Nat) :
    parseElements (fuel + 1) input =
      match parseValue fuel input with
      | none => none
      | some (v, r) =>
        match skipWs r with
        | 44 :: r1 => (parseElements fuel r1).map fun p => (v :: p.1, p.2)
        | 93 :: r1 => some ([v], r1)
        | _ => none := by
  rw [parseElements]

theorem parseMembers_succ (fuel : Nat) (input : List Nat) :
    parseMembers (fuel + 1) input =
      match skipWs input with
      | 34 :: r =>
        match parseStringBody r with
        | none => none
        | some (k, r1) =>
          match skipWs r1 with
          | 58 :: r2 =>
            match parseValue fuel r2 with
            | none => none
            | some (v, r3) =>
              match skipWs r3 with
              | 44 :: r4 => (parseMembers fuel r4).map fun p => ((k, v) :: p.1, p.2)
              | 125 :: r4 => some ([(k, v)], r4)
              | _ => none
          | _ => none
      | _ => none := by
  rw [parseMembers]

theorem skipWs_cons (c : Nat) (r : List Nat) (h : isWs c = false) : skipWs (c :: r) = c :: r := by
  simp [skipWs, h]

/-- A successfully parsed value does not begin with a closing bracket. -/
theorem parseValue_head (fuel : Nat) (input : List Nat) (x : JSON × List Nat)
    (h : parseValue fuel input = some x) : ∀ r, skipWs input ≠ 93 :: r := by
  intro r hr
  cases fuel with
  | zero => simp [parseValue] at h
  | succ f =>
    rw [parseValue, hr] at h
    simp [parseNumber] at h

theorem parseElements_stringify (c : Nat) (vs : List JSON) (hvs : ∀ v ∈ vs, RoundTrips v c)
    (hne : vs ≠ []) (fuel : Nat) (rest : List Nat) (hf : c + vs.length ≤ fuel) :
    parseElements fuel (stringifyElements vs ++ 93 :: rest) = some (vs, rest) := by
  induction vs generalizing fuel with
  | nil => exact absurd rfl hne
  | cons x xs ih =>
    obtain ⟨f, rfl⟩ : ∃ f, fuel = f + 1 := ⟨fuel - 1, by simp at hf; omega⟩
    have hx : RoundTrips x c := hvs x (by simp)
    simp only [List.length_cons] at hf
    cases xs with
    | nil =>
      rw [parseElements_succ, stringifyElements,
        hx f (93 :: rest) (by simp at hf; omega) (delim_cons _ _ (by simp))]
      simp [skipWs, isWs]
    | cons y ys =>
      rw [parseElements_succ, stringifyElements, List.append_assoc, List.cons_append,
        hx f _ (by simp at hf; omega) (delim_cons 44 _ (by simp))]
      simp only [skipWs_cons 44 _ (by decide)]
      rw [ih (fun v hv => hvs v (by simp [hv])) (by simp) f (by simp at hf ⊢; omega)]
      rfl

theorem roundTrips_arr (c : Nat) (vs : List JSON) (hvs : ∀ v ∈ vs, RoundTrips v c) :
    RoundTrips (.arr vs) (c + vs.length + 1) := by
  intro fuel rest hf _
  obtain ⟨f, rfl⟩ : ∃ f, fuel = f + 1 := ⟨fuel - 1, by omega⟩
  rw [JSON.stringify, List.cons_append, List.append_assoc, List.singleton_append,
    parseValue_succ _ _ _ (by decide)]
  cases vs with
  | nil => simp [stringifyElements, skipWs, isWs]
  | cons x xs =>
    have hpe := parseElements_stringify c (x :: xs) hvs (by simp) f rest (by omega)
    have hhead : ∀ r, skipWs (stringifyElements (x :: xs) ++ 93 :: rest) ≠ 93 :: r := by
      have hx : RoundTrips x c := hvs x (by simp)
      cases xs with
      | nil =>
        rw [stringifyElements]
        exact parseValue_head c _ _ (hx c (93 :: rest) le_rfl (delim_cons _ _ (by simp)))
      | cons y ys =>
        rw [stringifyElements, List.append_assoc, List.cons_append]
        exact parseValue_head c _ _ (hx c _ le_rfl (delim_cons 44 _ (by simp)))
    simp only [show ¬ (91 = 34) by decide, show ¬ (91 = 116) by decide, show ¬ (91 = 102) by decide,
      show ¬ (91 = 110) by decide, if_false, if_true]
    rw [hpe]; rfl

theorem parseMembers_stringify (c : Nat) (kvs : List (JSString × JSON))
    (hvs : ∀ kv ∈ kvs, RoundTrips kv.2 c)
    (hne : kvs ≠ []) (fuel : Nat) (rest : List Nat) (hf : c + kvs.length ≤ fuel) :
    parseMembers fuel (stringifyMembers kvs ++ 125 :: rest) = some (kvs, rest) := by
  induction kvs generalizing fuel with
  | nil => exact absurd rfl hne
  | cons x xs ih =>
    obtain ⟨f, rfl⟩ : ∃ f, fuel = f + 1 := ⟨fuel - 1, by simp at hf; omega⟩
    obtain ⟨k, v⟩ := x
    have hx : RoundTrips v c := hvs (k, v) (by simp)
    simp only [List.length_cons] at hf
    cases xs with
    | nil =>
      rw [parseMembers_succ, stringifyMembers, quote]
      simp only [List.cons_append, List.append_assoc, List.nil_append, skipWs_cons 34 _ (by decide),
        parseStringBody_quoteBody, skipWs_cons 58 _ (by decide)]
      rw [hx f (125 :: rest) (by omega) (delim_cons _ _ (by simp))]
      simp [skipWs, isWs]
    | cons y ys =>
      rw [parseMembers_succ, stringifyMembers, quote]
      simp only [List.cons_append, List.append_assoc, List.nil_append, skipWs_cons 34 _ (by decide),
        parseStringBody_quoteBody, skipWs_cons 58 _ (by decide)]
      rw [hx f _ (by omega) (delim_cons 44 _ (by simp))]
      simp only [skipWs_cons 44 _ (by decide)]
      rw [ih (fun v hv => hvs v (by simp [hv])) (by simp) f (by simp at hf ⊢; omega)]
      rfl

theorem roundTrips_obj (c : Nat) (kvs : List (JSString × JSON))
    (hvs : ∀ kv ∈ kvs, RoundTrips kv.2 c) :
    RoundTrips (.obj kvs) (c + kvs.length + 1) := by
  intro fuel rest hf _
  obtain ⟨f, rfl⟩ : ∃ f, fuel = f + 1 := ⟨fuel - 1, by omega⟩
  rw [JSON.stringify, List.cons_append, List.append_assoc, List.singleton_append,
    parseValue_succ _ _ _ (by decide)]
  cases kvs with
  | nil => simp [stringifyMembers, skipWs, isWs]
  | cons x xs =>
    have hpe := parseMembers_stringify c (x :: xs) hvs (by simp) f rest (by omega)
    have hhead : ∀ r, skipWs (stringifyMembers (x :: xs) ++ 125 :: rest) ≠ 125 :: r := by
      intro r
      obtain ⟨k, v⟩ := x
      cases xs <;> simp [stringifyMembers, quote, skipWs, isWs]
    simp only [show ¬ (123 = 34) by decide, show ¬ (123 = 116) by decide,
      show ¬ (123 = 102) by decide, show ¬ (123 = 110) by decide, show ¬ (123 = 91) by decide,
      if_false, if_true]
    rw [hpe]; rfl

theorem JSON.parse_stringify (v : JSON) (c : Nat) (h : RoundTrips v c)
    (hlen : c ≤ v.stringify.length + 1) : JSON.parse v.stringify = some v := by
  have := h (v.stringify.length + 1) [] hlen delim_nil
  rw [List.append_nil] at this
  simp [JSON.parse, this, skipWs]


theorem Buffer.ofBinaryString_toBinaryString (buf : Buffer) :
    Buffer.ofBinaryString buf.toBinaryString = buf := by
  induction buf with
  | nil => rfl
  | cons b bs ih =>
    simp only [Buffer.toBinaryString, Buffer.ofBinaryString, List.map_cons, List.map_map] at ih ⊢
    rw [ih]
    congr 1
    exact Fin.ext (Nat.mod_eq_of_lt b.isLt)

theorem length_stringifyElements_str (ss : List JSString) :
    ss.length ≤ (stringifyElements (ss.map JSON.str)).length := by
  induction ss with
  | nil => simp
  | cons x xs ih =>
    cases xs with
    | nil => simp [stringifyElements, JSON.stringify, quote]
    | cons y ys =>
      simp only [List.map_cons, stringifyElements, JSON.stringify, quote, List.length_append,
        List.length_cons] at ih ⊢
      omega

theorem asStrings_map_str (ss : List JSString) :
    JSON.asStrings (ss.map JSON.str) = some ss := by
  induction ss with
  | nil => rfl
  | cons x xs ih => simp [JSON.asStrings, ih, JSON.asString]

/-- The object built by `serializeBlock` parses back to itself. -/
theorem parse_blockObject (kvs : List (JSString × JSON)) (ss : List JSString)
    (k0 k1 k2 k3 k4 k5 k6 k7 k8 k9 k10 : JSString) (s0 s1 s9 : JSString) (n2 n3 n4 n5 n6 n7 : Nat)
    (b8 : Bool)
    (hk : kvs = [(k0, .str s0), (k1, .str s1), (k2, .num n2), (k3, .num n3), (k4, .num n4),
      (k5, .num n5), (k6, .num n6), (k7, .num n7), (k8, .bool b8), (k9, .str s9),
      (k10, .arr (ss.map JSON.str))]) :
    JSON.parse (JSON.obj kvs).stringify = some (JSON.obj kvs) := by
  have harr : RoundTrips (.arr (ss.map JSON.str)) (ss.length + 2) := by
    have := roundTrips_arr 1 (ss.map JSON.str) (by
      intro v hv
      obtain ⟨s, _, rfl⟩ := List.mem_map.mp hv
      exact roundTrips_str s)
    simp only [List.length_map] at this
    exact this.mono (by omega)
  have hall : ∀ kv ∈ kvs, RoundTrips kv.2 (ss.length + 2) := by
    subst hk
    intro kv hkv
    simp only [List.mem_cons, List.mem_singleton, List.not_mem_nil, or_false] at hkv
    rcases hkv with rfl | rfl | rfl | rfl | rfl | rfl | rfl | rfl | rfl | rfl | rfl
    · exact (roundTrips_str _).mono (by omega)
    · exact (roundTrips_str _).mono (by omega)
    · exact (roundTrips_num _).mono (by omega)
    · exact (roundTrips_num _).mono (by omega)
    · exact (roundTrips_num _).mono (by omega)
    · exact (roundTrips_num _).mono (by omega)
    · exact (roundTrips_num _).mono (by omega)
    · exact (roundTrips_num _).mono (by omega)
    · exact (roundTrips_bool _).mono (by omega)
    · exact (roundTrips_str _).mono (by omega)
    · exact harr
  refine JSON.parse_stringify _ _ (roundTrips_obj _ kvs hall) ?_
  have hlen := length_stringifyElements_str ss
  subst hk
  simp only [JSON.stringify, stringifyMembers, quote, List.length_append, List.length_cons,
    List.length_nil]
  omega

theorem field_blockObject (v0 v1 v2 v3 v4 v5 v6 v7 v8 v9 v10 : JSON) :
    let data := JSON.obj [(str "prev_hash", v0), (str "merkle_root", v1), (str "timestamp", v2),
      (str "bits", v3), (str "nonce", v4), (str "version", v5), (str "height", v6),
      (str "size", v7), (str "active", v8), (str "chainWork", v9), (str "txs", v10)]
    data.field (str "prev_hash") = some v0 ∧ data.field (str "merkle_root") = some v1 ∧
    data.field (str "timestamp") = some v2 ∧ data.field (str "bits") = some v3 ∧
    data.field (str "nonce") = some v4 ∧ data.field (str "version") = some v5 ∧
    data.field (str "height") = some v6 ∧ data.field (str "size") = some v7 ∧
    data.field (str "active") = some v8 ∧ data.field (str "chainWork") = some v9 ∧
    data.field (str "txs") = some v10 := by
  intro data
  refine ⟨?_, ?_, ?_, ?_, ?_, ?_, ?_, ?_, ?_, ?_, ?_⟩ <;> rfl

theorem map_ofBinaryString_toBinaryString (l : List Buffer) :
    List.map Buffer.ofBinaryString (List.map Buffer.toBinaryString l) = l := by
  induction l with
  | nil => rfl
  | cons x xs ih => simp [Buffer.ofBinaryString_toBinaryString, ih]

theorem deserializeBlock_serializeBlock (b : Block) :
    deserializeBlock (serializeBlock b) = some b := by
  have e : (b.txs.map fun hash => JSON.str (Buffer.toBinaryString hash)) =
      (b.txs.map Buffer.toBinaryString).map JSON.str := by
    rw [List.map_map]; rfl
  unfold deserializeBlock serializeBlock
  simp only []
  rw [e, parse_blockObject _ (b.txs.map Buffer.toBinaryString) _ _ _ _ _ _ _ _ _ _ _ _ _ _ _ _ _ _ _
    _ _ rfl]
  obtain ⟨h0, h1, h2, h3, h4, h5, h6, h7, h8, h9, h10⟩ := field_blockObject
    (.str b.prev_hash.toBinaryString) (.str b.merkle_root.toBinaryString) (.num b.timestamp)
    (.num b.bits) (.num b.nonce) (.num b.version) (.num b.height) (.num b.size) (.bool b.active)
    (.str b.chainWork.toBinaryString) (.arr ((b.txs.map Buffer.toBinaryString).map JSON.str))
  simp only [Option.some_bind, h0, h1, h2, h3, h4, h5, h6, h7, h8, h9, h10, JSON.asString,
    JSON.asNumber, JSON.asBool, JSON.asArray, asStrings_map_str, Option.map_some',
    Buffer.ofBinaryString_toBinaryString, map_ofBinaryString_toBinaryString]

/-- C1: for every block `b` (hashes and chain work being byte strings of any
length and content, `txs` possibly empty), decoding the encoding of `b` gives
a block with the same `prev_hash`, `merkle_root`, `timestamp`, `bits`,
`nonce`, `version`, `height`, `size`, `active`, `chainWork` and `txs`: the
record `b` itself. -/
theorem block_round_trip (b : Block) :
    ∃ b1, deserializeBlock (serializeBlock b) = some b1 ∧
      b1.prev_hash = b.prev_hash ∧ b1.merkle_root = b.merkle_root ∧
      b1.timestamp = b.timestamp ∧ b1.bits = b.bits ∧ b1.nonce = b.nonce ∧
      b1.version = b.version ∧ b1.height = b.height ∧ b1.size = b.size ∧
      b1.active = b.active ∧ b1.chainWork = b.chainWork ∧ b1.txs = b.txs ∧ b1 = b :=
  ⟨b, deserializeBlock_serializeBlock b, rfl, rfl, rfl, rfl, rfl, rfl, rfl, rfl, rfl, rfl, rfl, rfl⟩

/-- The text `serializeBlock` writes for `blockSmall`, as `JSON.stringify`
prints it: control characters as `\uXXXX` or a short escape, the quote and the
backslash escaped, every other code unit as it is. -/
theorem serializeBlock_blockSmall :
    serializeBlock blockSmall =
      str "\x7b\"prev_hash\":\"\\u0000\\\"\xff\",\"merkle_root\":\"\\\\\\n\",\"timestamp\":1300000000,\"bits\":486604799,\"nonce\":0,\"version\":1,\"height\":7,\"size\":215,\"active\":false,\"chainWork\":\"\",\"txs\":[\"A\",\"B\\u001f\"]\x7d" := by
  set_option maxRecDepth 100000 in decide

/-! ### Height keys -/

theorem and0xff_shiftRight32 (n : Nat) (k : Nat) (hk : k = 24 ∨ k = 16 ∨ k = 8) :
    and0xff (shiftRight32 (n : Int) k) = n / 2 ^ k % 256 := by
  unfold and0xff shiftRight32 toInt32
  rcases hk with rfl | rfl | rfl <;>
  · simp only []
    split <;> split <;> omega

theorem and0xff_natCast (n : Nat) : and0xff (n : Int) = n % 256 := by
  unfold and0xff toInt32
  simp only []
  split <;> omega

/-- The key of a natural height: its four low base-256 digits, big end first. -/
theorem formatHeightKey_natCast (n : Nat) :
    formatHeightKey (n : ℚ) = [n / 2 ^ 24 % 256, n / 2 ^ 16 % 256, n / 2 ^ 8 % 256, n % 256] := by
  simp [formatHeightKey, Buffer.toBinaryString, toByte, and0xff_shiftRight32, and0xff_natCast]

/-- Only the floor of the height enters the key. -/
theorem formatHeightKey_floor (height : ℚ) (h : 0 ≤ height) :
    formatHeightKey height = formatHeightKey ((⌊height⌋₊ : ℕ) : ℚ) := by
  have h1 : ((⌊height⌋₊ : ℕ) : ℤ) = ⌊height⌋ := Int.natCast_floor_eq_floor h
  simp only [formatHeightKey, Int.floor_natCast, h1]

theorem height_digits (n : Nat) :
    n % 2 ^ 32 =
      (n / 2 ^ 24 % 256) * 2 ^ 24 + (n / 2 ^ 16 % 256) * 2 ^ 16 + (n / 2 ^ 8 % 256) * 2 ^ 8 +
        n % 256 := by
  omega

/-- On four-byte keys the lexical order is the order of the big-endian values. -/
theorem keyLt_bytes (a0 a1 a2 a3 b0 b1 b2 b3 : Nat) (h1 : a1 < 256) (h2 : a2 < 256)
    (h3 : a3 < 256) (g1 : b1 < 256) (g2 : b2 < 256) (g3 : b3 < 256) :
    keyLt [a0, a1, a2, a3] [b0, b1, b2, b3] = true ↔
      a0 * 2 ^ 24 + a1 * 2 ^ 16 + a2 * 2 ^ 8 + a3 < b0 * 2 ^ 24 + b1 * 2 ^ 16 + b2 * 2 ^ 8 + b3 := by
  simp only [keyLt, Bool.or_eq_true, Bool.and_eq_true, decide_eq_true_eq, beq_iff_eq,
    Bool.or_false, Bool.false_eq_true, and_false, or_false]
  omega

/-- Below `2^32` the order of the keys is the order of the heights. -/
theorem keyLt_formatHeightKey_iff (h1 h2 : Nat) (hb1 : h1 < 2 ^ 32) (hb2 : h2 < 2 ^ 32) :
    keyLt (formatHeightKey (h1 : ℚ)) (formatHeightKey (h2 : ℚ)) = true ↔ h1 < h2 := by
  rw [formatHeightKey_natCast, formatHeightKey_natCast,
    keyLt_bytes _ _ _ _ _ _ _ _ (Nat.mod_lt _ (by decide)) (Nat.mod_lt _ (by decide))
      (Nat.mod_lt _ (by decide)) (Nat.mod_lt _ (by decide)) (Nat.mod_lt _ (by decide))
      (Nat.mod_lt _ (by decide)),
    ← height_digits h1, ← height_digits h2, Nat.mod_eq_of_lt hb1, Nat.mod_eq_of_lt hb2]

theorem keyLt_formatHeightKey (h1 h2 : Nat) (hlt : h1 < h2) (hb : h2 < 2 ^ 32) :
    keyLt (formatHeightKey (h1 : ℚ)) (formatHeightKey (h2 : ℚ)) = true :=
  (keyLt_formatHeightKey_iff h1 h2 (lt_trans hlt hb) hb).mpr hlt

/-- C2: for integer heights `0 ≤ h1 < h2 < 2^32` the key of `h1` is strictly
below the key of `h2` in the byte-wise lexical order. -/
theorem height_key_order (h1 h2 : ℤ) (h0 : 0 ≤ h1) (hlt : h1 < h2) (hb : h2 < 2 ^ 32) :
    keyLt (formatHeightKey (h1 : ℚ)) (formatHeightKey (h2 : ℚ)) = true := by
  obtain ⟨n1, rfl⟩ := Int.eq_ofNat_of_zero_le h0
  obtain ⟨n2, rfl⟩ := Int.eq_ofNat_of_zero_le (le_trans h0 (le_of_lt hlt))
  have := keyLt_formatHeightKey n1 n2 (by exact_mod_cast hlt) (by exact_mod_cast hb)
  simpa using this

theorem height_key_order_witness :
    (0 : ℤ) ≤ 255 ∧ (255 : ℤ) < 256 ∧ (256 : ℤ) < 2 ^ 32 ∧
      keyLt (formatHeightKey ((255 : ℤ) : ℚ)) (formatHeightKey ((256 : ℤ) : ℚ)) = true :=
  ⟨by decide, by decide, by decide, height_key_order 255 256 (by decide) (by decide) (by decide)⟩

/-- C3: for a non-negative number `height` whose floor is below `2^32` the key
has exactly four bytes, and byte `i` is `⌊⌊height⌋ / 256^(3-i)⌋ mod 256`. -/
theorem height_key_big_endian (height : ℚ) (h0 : 0 ≤ height) (_hb : ⌊height⌋₊ < 2 ^ 32) :
    (formatHeightKey height).length = 4 ∧
      ∀ i, i < 4 → (formatHeightKey height)[i]? = some (⌊height⌋₊ / 256 ^ (3 - i) % 256) := by
  rw [formatHeightKey_floor height h0, formatHeightKey_natCast]
  refine ⟨rfl, ?_⟩
  intro i hi
  interval_cases i <;> simp

theorem height_key_big_endian_witness :
    (0 : ℚ) ≤ 131075 / 2 ∧ ⌊(131075 / 2 : ℚ)⌋₊ < 2 ^ 32 ∧
      (formatHeightKey (131075 / 2)).length = 4 ∧
      ∀ i, i < 4 →
        (formatHeightKey (131075 / 2))[i]? = some (⌊(131075 / 2 : ℚ)⌋₊ / 256 ^ (3 - i) % 256) :=
  have h0 : (0 : ℚ) ≤ 131075 / 2 := by norm_num
  have hb : ⌊(131075 / 2 : ℚ)⌋₊ < 2 ^ 32 := (Nat.floor_lt h0).mpr (by norm_num)
  ⟨h0, hb, height_key_big_endian (131075 / 2) h0 hb⟩

/-! ### Tables -/

theorem lookup_filter_ne (k k1 : JSString) (l : List (JSString × JSString)) :
    List.lookup k1 (l.filter fun kv => kv.1 != k) = if k1 = k then none else l.lookup k1 := by
  induction l with
  | nil => simp
  | cons kv rest ih =>
    obtain ⟨a, b⟩ := kv
    by_cases hak : a = k
    · subst hak
      by_cases h1 : k1 = a
      · subst h1; simp [List.filter, ih]
      · have : (k1 == a) = false := by simpa using h1
        simp [List.filter, ih, h1, List.lookup, this]
    · have hne : (a != k) = true := by simpa using hak
      by_cases h1 : k1 = a
      · subst h1
        simp [List.filter, hne, List.lookup, hak]
      · have : (k1 == a) = false := by simpa using h1
        simp [List.filter, hne, List.lookup, this, ih]

theorem Table.find_put (t : Table) (k v k1 : JSString) (h : t.fault = none) :
    (t.put k v).1.find k1 = if k1 = k then some v else t.find k1 := by
  unfold Table.put Table.find
  rw [h]
  by_cases h1 : k1 = k
  · subst h1; simp [List.lookup]
  · have : (k1 == k) = false := by simpa using h1
    simp [List.lookup, this, lookup_filter_ne, h1]

theorem Table.put_fault (t : Table) (k v : JSString) : (t.put k v).1.fault = t.fault := by
  unfold Table.put
  cases h : t.fault <;> simp [h]

theorem Table.put_err (t : Table) (k v : JSString) : (t.put k v).2 = t.fault := by
  unfold Table.put
  cases h : t.fault <;> simp

theorem Table.put_of_fault (t : Table) (k v : JSString) (e : Error) (h : t.fault = some e) :
    t.put k v = (t, some e) := by
  unfold Table.put
  rw [h]

theorem lookup_getBulk (t : Table) (keys : List JSString) (k : JSString) :
    List.lookup k (keys.filterMap fun k => (t.find k).map fun v => (k, v)) =
      if k ∈ keys then t.find k else none := by
  induction keys with
  | nil => simp
  | cons a rest ih =>
    by_cases hka : k = a
    · subst hka
      cases hf : t.find k with
      | none => simp [List.filterMap_cons, hf, ih]
      | some v => simp [List.filterMap_cons, hf, List.lookup]
    · have hb : (k == a) = false := by simpa using hka
      cases hf : t.find a with
      | none => simp [List.filterMap_cons, hf, ih, hka]
      | some v => simp [List.filterMap_cons, hf, List.lookup, hb, ih, hka]

/-! ### Bulk lookup -/

theorem deserializeBlock_nil : deserializeBlock [] = none := rfl

theorem truthy_of_decodes (d : JSString) (h : (deserializeBlock d).isSome = true) :
    truthy d = true := by
  cases d with
  | nil => rw [deserializeBlock_nil] at h; simp at h
  | cons c cs => rfl

theorem collectBlocks_eq (resp : List (JSString × JSString)) (keys : List JSString)
    (h : ∀ k ∈ keys, ∀ d, resp.lookup k = some d → (deserializeBlock d).isSome = true) :
    collectBlocks resp keys =
      some (keys.filterMap fun k => (resp.lookup k).bind deserializeBlock) := by
  induction keys with
  | nil => rfl
  | cons k rest ih =>
    have ih1 := ih (fun k1 hk1 => h k1 (by simp [hk1]))
    cases hl : resp.lookup k with
    | none => simp [collectBlocks, hl, ih1, List.filterMap_cons]
    | some d =>
      have hd := h k (by simp) d hl
      obtain ⟨b, hb⟩ := Option.isSome_iff_exists.mp hd
      simp [collectBlocks, hl, ih1, List.filterMap_cons, truthy_of_decodes d hd, hb]

theorem collectTransactions_eq {Transaction : Type} (schema : TxSchema Transaction)
    (resp : List (JSString × JSString)) (keys : List JSString)
    (h : ∀ k ∈ keys, ∀ d, resp.lookup k = some d →
      d ≠ [] ∧ (deserializeTransaction schema d).isSome = true) :
    collectTransactions schema resp keys =
      some (keys.filterMap fun k => (resp.lookup k).bind (deserializeTransaction schema)) := by
  induction keys with
  | nil => rfl
  | cons k rest ih =>
    have ih1 := ih (fun k1 hk1 => h k1 (by simp [hk1]))
    cases hl : resp.lookup k with
    | none => simp [collectTransactions, hl, ih1, List.filterMap_cons]
    | some d =>
      obtain ⟨hne, hd⟩ := h k (by simp) d hl
      obtain ⟨b, hb⟩ := Option.isSome_iff_exists.mp hd
      have ht : truthy d = true := by
        cases d with
        | nil => exact absurd rfl hne
        | cons c cs => rfl
      simp [collectTransactions, hl, ih1, List.filterMap_cons, ht, hb]

theorem filterMap_lookup_getBulk {β : Type} (t : Table) (f : JSString → Option β)
    (keys : List JSString) :
    (keys.filterMap fun k =>
      (List.lookup k (keys.filterMap fun k => (t.find k).map fun v => (k, v))).bind f) =
    keys.filterMap fun k => (t.find k).bind f := by
  apply List.filterMap_congr
  intro k hk
  rw [lookup_getBulk, if_pos hk]

/-- The blocks `getBlocksByHashes` delivers when the engine answers and the
requested records decode: the decoded records of the present keys, in the
order of the request. -/
theorem getBlocksByHashes_eq (s : Store) (hashes : List HashRef)
    (hfault : s.hBlock.fault = none)
    (hdec : ∀ k ∈ hashes, ∀ d, s.hBlock.find k.toKey = some d →
      (deserializeBlock d).isSome = true) :
    getBlocksByHashes s hashes =
      .ok (hashes.filterMap fun k => (s.hBlock.find k.toKey).bind deserializeBlock) := by
  unfold getBlocksByHashes Table.getBulk
  simp only [hfault]
  rw [collectBlocks_eq]
  · rw [filterMap_lookup_getBulk, List.filterMap_map]
    rfl
  · intro k hk d hd
    rw [lookup_getBulk, if_pos hk] at hd
    obtain ⟨r, hr, rfl⟩ := List.mem_map.mp hk
    exact hdec r hr d hd

theorem getTransactionsByHashes_eq {Transaction : Type} (schema : TxSchema Transaction)
    (s : Store) (hashes : List HashRef) (hfault : s.hTransaction.fault = none)
    (hdec : ∀ k ∈ hashes, ∀ d, s.hTransaction.find k.toKey = some d →
      d ≠ [] ∧ (deserializeTransaction schema d).isSome = true) :
    getTransactionsByHashes schema s hashes =
      .ok (hashes.filterMap fun k =>
        (s.hTransaction.find k.toKey).bind (deserializeTransaction schema)) := by
  unfold getTransactionsByHashes Table.getBulk
  simp only [hfault]
  rw [collectTransactions_eq]
  · rw [filterMap_lookup_getBulk, List.filterMap_map]
    rfl
  · intro k hk d hd
    rw [lookup_getBulk, if_pos hk] at hd
    obtain ⟨r, hr, rfl⟩ := List.mem_map.mp hk
    exact hdec r hr d hd

/-- C4: when the engine answers the batch and the requested records decode
(for transactions: are non-empty payloads that parse), `getBlocksByHashes`
delivers exactly the decoded records of the requested keys that are present,
in the order of the request, absent keys being left out without an error, so
that the output is no longer than the request; and `getTransactionsByHashes`
does the same against the transaction table. -/
theorem bulk_lookup_in_request_order {Transaction : Type} (schema : TxSchema Transaction)
    (s : Store) (keys : List HashRef) :
    (s.hBlock.fault = none →
      (∀ k ∈ keys, ∀ d, s.hBlock.find k.toKey = some d → (deserializeBlock d).isSome = true) →
      getBlocksByHashes s keys = .ok (keys.filterMap fun k => storedBlock s k.toKey) ∧
      (keys.filterMap fun k => storedBlock s k.toKey).length ≤ keys.length) ∧
    (s.hTransaction.fault = none →
      (∀ k ∈ keys, ∀ d, s.hTransaction.find k.toKey = some d →
        d ≠ [] ∧ (deserializeTransaction schema d).isSome = true) →
      getTransactionsByHashes schema s keys =
        .ok (keys.filterMap fun k => storedTransaction schema s k.toKey) ∧
      (keys.filterMap fun k => storedTransaction schema s k.toKey).length ≤ keys.length) :=
  ⟨fun hf hd => ⟨getBlocksByHashes_eq s keys hf hd, List.length_filterMap_le _ _⟩,
   fun hf hd => ⟨getTransactionsByHashes_eq schema s keys hf hd, List.length_filterMap_le _ _⟩⟩

theorem exampleStore_find_X :
    exampleStore.hBlock.find (exampleHash blockX).toBinaryString = some (serializeBlock blockX) :=
  rfl

theorem exampleStore_find_Y :
    exampleStore.hBlock.find (exampleHash blockY).toBinaryString = none := by
  decide

theorem exampleStore_find_Z :
    exampleStore.hBlock.find (exampleHash blockZ).toBinaryString = some (serializeBlock blockZ) :=
  rfl

theorem exampleStore_decodes (k : HashRef) (hk : k ∈ exampleKeys) (d : JSString)
    (hd : exampleStore.hBlock.find k.toKey = some d) : (deserializeBlock d).isSome = true := by
  simp only [exampleKeys, List.mem_cons, List.mem_singleton, List.not_mem_nil, or_false] at hk
  rcases hk with rfl | rfl | rfl | rfl
  · rw [HashRef.toKey, exampleStore_find_X] at hd
    cases hd
    rw [deserializeBlock_serializeBlock]; rfl
  · rw [HashRef.toKey, exampleStore_find_Y] at hd
    cases hd
  · rw [HashRef.toKey, exampleStore_find_Z] at hd
    cases hd
    rw [deserializeBlock_serializeBlock]; rfl
  · have h : exampleStore.hBlock.find (HashRef.string [9, 9]).toKey = none := by decide
    rw [h] at hd
    cases hd

theorem exampleStore_tx_decodes (k : HashRef) (hk : k ∈ exampleKeys) (d : JSString)
    (hd : exampleStore.hTransaction.find k.toKey = some d) :
    d ≠ [] ∧ (deserializeTransaction exampleSchema d).isSome = true := by
  have hnone : ∀ b ∈ [blockX, blockY, blockZ],
      exampleStore.hTransaction.find (HashRef.buffer (exampleHash b)).toKey = none := by
    decide
  simp only [exampleKeys, List.mem_cons, List.mem_singleton, List.not_mem_nil, or_false] at hk
  rcases hk with rfl | rfl | rfl | rfl
  · rw [hnone blockX (by simp)] at hd; cases hd
  · rw [hnone blockY (by simp)] at hd; cases hd
  · rw [hnone blockZ (by simp)] at hd; cases hd
  · have h : exampleStore.hTransaction.find (HashRef.string [9, 9]).toKey = some [1, 0, 0, 0] := by
      decide
    rw [h] at hd
    cases hd
    decide

/-- The example of the batched lookup: of the four requested keys only the
hashes of `blockX` and `blockZ` are in the block table. -/
theorem exampleStore_bulk :
    getBlocksByHashes exampleStore exampleKeys = .ok [blockX, blockZ] := by
  rw [getBlocksByHashes_eq exampleStore exampleKeys rfl exampleStore_decodes]
  have h9 : exampleStore.hBlock.find (HashRef.string [9, 9]).toKey = none := by decide
  simp only [exampleKeys, List.filterMap_cons, List.filterMap_nil, HashRef.toKey,
    exampleStore_find_X, exampleStore_find_Y, exampleStore_find_Z, Option.some_bind,
    Option.none_bind, deserializeBlock_serializeBlock]
  simp only [HashRef.toKey] at h9
  simp [h9]

theorem bulk_lookup_in_request_order_witness :
    (getBlocksByHashes exampleStore exampleKeys =
        .ok (exampleKeys.filterMap fun k => storedBlock exampleStore k.toKey) ∧
      (exampleKeys.filterMap fun k => storedBlock exampleStore k.toKey).length ≤
        exampleKeys.length) ∧
    (getTransactionsByHashes exampleSchema exampleStore exampleKeys =
        .ok (exampleKeys.filterMap fun k => storedTransaction exampleSchema exampleStore k.toKey) ∧
      (exampleKeys.filterMap fun k =>
        storedTransaction exampleSchema exampleStore k.toKey).length ≤ exampleKeys.length) :=
  ⟨(bulk_lookup_in_request_order exampleSchema exampleStore exampleKeys).1 rfl
      exampleStore_decodes,
   (bulk_lookup_in_request_order exampleSchema exampleStore exampleKeys).2 rfl
      exampleStore_tx_decodes⟩

/-! ### Locator resolution -/

theorem higher_none (b : Block) : higher none b = if b.active then some b else none := by
  unfold higher
  cases b.active <;> simp

theorem higher_some (h b : Block) :
    higher (some h) b = if b.active = true ∧ h.height < b.height then some b else some h := by
  unfold higher
  by_cases ha : b.active = true <;> by_cases hh : h.height < b.height <;> simp [ha, hh]

/-- What the `forEach` of `getBlockByLocator` leaves in `highest`. -/
theorem foldl_higher_spec (bs : List Block) (acc : Option Block) :
    (∀ b, bs.foldl higher acc = some b →
      (acc = some b ∨ (b ∈ bs ∧ b.active = true)) ∧
      (∀ b1 ∈ bs, b1.active = true → b1.height ≤ b.height) ∧
      (∀ a, acc = some a → a.height ≤ b.height)) ∧
    (bs.foldl higher acc = none → acc = none ∧ ∀ b ∈ bs, b.active = false) := by
  induction bs generalizing acc with
  | nil =>
    refine ⟨fun b hb => ⟨Or.inl hb, by simp, ?_⟩, fun h => ⟨h, by simp⟩⟩
    intro a ha
    simp only [List.foldl_nil] at hb
    rw [ha] at hb
    cases hb
    exact le_rfl
  | cons x xs ih =>
    simp only [List.foldl_cons]
    obtain ⟨ih1, ih2⟩ := ih (higher acc x)
    constructor
    · intro b hb
      obtain ⟨h1, h2, h3⟩ := ih1 b hb
      cases acc with
      | none =>
        rw [higher_none] at h1 h3
        by_cases hx : x.active = true
        · simp only [hx, if_true] at h1 h3
          refine ⟨Or.inr ?_, ?_, by simp⟩
          · rcases h1 with h1 | h1
            · cases h1; exact ⟨by simp, hx⟩
            · exact ⟨by simp [h1.1], h1.2⟩
          · intro b1 hb1 hact
            rcases List.mem_cons.mp hb1 with rfl | hb1
            · exact h3 _ rfl
            · exact h2 b1 hb1 hact
        · simp only [hx, Bool.false_eq_true, if_false] at h1 h3
          refine ⟨Or.inr ?_, ?_, by simp⟩
          · rcases h1 with h1 | h1
            · cases h1
            · exact ⟨by simp [h1.1], h1.2⟩
          · intro b1 hb1 hact
            rcases List.mem_cons.mp hb1 with rfl | hb1
            · exact absurd hact hx
            · exact h2 b1 hb1 hact
      | some a =>
        rw [higher_some] at h1 h3
        by_cases hx : x.active = true ∧ a.height < x.height
        · simp only [hx, and_self, if_true] at h1 h3
          have hxb : x.height ≤ b.height := h3 x rfl
          refine ⟨Or.inr ?_, ?_, ?_⟩
          · rcases h1 with h1 | h1
            · cases h1; exact ⟨by simp, hx.1⟩
            · exact ⟨by simp [h1.1], h1.2⟩
          · intro b1 hb1 hact
            rcases List.mem_cons.mp hb1 with rfl | hb1
            · exact hxb
            · exact h2 b1 hb1 hact
          · intro a1 ha1
            cases ha1
            omega
        · simp only [hx, if_false] at h1 h3
          have hab : a.height ≤ b.height := h3 a rfl
          refine ⟨?_, ?_, ?_⟩
          · rcases h1 with h1 | h1
            · exact Or.inl h1
            · exact Or.inr ⟨by simp [h1.1], h1.2⟩
          · intro b1 hb1 hact
            rcases List.mem_cons.mp hb1 with rfl | hb1
            · have : ¬ a.height < b1.height := fun hlt => hx ⟨hact, hlt⟩
              omega
            · exact h2 b1 hb1 hact
          · intro a1 ha1
            cases ha1
            exact hab
    · intro hn
      obtain ⟨h1, h2⟩ := ih2 hn
      cases acc with
      | none =>
        rw [higher_none] at h1
        by_cases hx : x.active = true
        · simp [hx] at h1
        · refine ⟨rfl, ?_⟩
          intro b hb
          rcases List.mem_cons.mp hb with rfl | hb
          · simpa using hx
          · exact h2 b hb
      | some a =>
        rw [higher_some] at h1
        by_cases hx : x.active = true ∧ a.height < x.height <;> simp [hx] at h1

theorem mem_storedBlocks (s : Store) (locator : List HashRef) (b : Block) :
    b ∈ (locator.filterMap fun k => storedBlock s k.toKey) ↔
      ∃ k ∈ locator, storedBlock s k.toKey = some b := by
  simp [List.mem_filterMap]

/-- The result of `getBlockByLocator` when the engine answers and the
candidate records decode. -/
theorem getBlockByLocator_spec (s : Store) (locator : List HashRef)
    (hfault : s.hBlock.fault = none)
    (hdec : ∀ k ∈ locator, ∀ d, s.hBlock.find k.toKey = some d →
      (deserializeBlock d).isSome = true) :
    ∃ r, getBlockByLocator s locator = .ok r ∧
      (∀ b, r = some b →
        ActiveCandidate s locator b ∧ ∀ b1, ActiveCandidate s locator b1 → b1.height ≤ b.height) ∧
      (r = none ↔ ¬ ∃ b, ActiveCandidate s locator b) := by
  refine ⟨(locator.filterMap fun k => storedBlock s k.toKey).foldl higher none, ?_, ?_, ?_⟩
  · unfold getBlockByLocator
    rw [getBlocksByHashes_eq s locator hfault hdec]
    rfl
  · intro b hb
    obtain ⟨h1, h2, _⟩ := (foldl_higher_spec _ none).1 b hb
    rcases h1 with h1 | h1
    · cases h1
    · refine ⟨⟨(mem_storedBlocks s locator b).mp h1.1, h1.2⟩, ?_⟩
      intro b1 hb1
      exact h2 b1 ((mem_storedBlocks s locator b1).mpr hb1.1) hb1.2
  · constructor
    · intro hn
      rintro ⟨b, hb, hact⟩
      have := ((foldl_higher_spec _ none).2 hn).2 b ((mem_storedBlocks s locator b).mpr hb)
      rw [hact] at this
      cases this
    · intro hno
      cases hr : (locator.filterMap fun k => storedBlock s k.toKey).foldl higher none with
      | none => rfl
      | some b =>
        exfalso
        obtain ⟨h1, _, _⟩ := (foldl_higher_spec _ none).1 b hr
        rcases h1 with h1 | h1
        · cases h1
        · exact hno ⟨b, (mem_storedBlocks s locator b).mp h1.1, h1.2⟩

/-- C5: when the engine answers and the candidate records decode,
`getBlockByLocator` delivers a block that is stored under a candidate hash,
is active, and is at least as high as every stored active candidate; it
delivers null exactly when no candidate is a stored active block. In
particular, with `X` (height 3, active), `Y` (height 7, active) and `Z`
(height 7, inactive) stored under the three hashes of the locator, in any
order of the locator, the result is `Y`. -/
theorem locator_resolves_highest_active :
    (∀ (s : Store) (locator : List HashRef), s.hBlock.fault = none →
      (∀ k ∈ locator, ∀ d, s.hBlock.find k.toKey = some d →
        (deserializeBlock d).isSome = true) →
      ∃ r, getBlockByLocator s locator = .ok r ∧
        (∀ b, r = some b →
          ActiveCandidate s locator b ∧
            ∀ b1, ActiveCandidate s locator b1 → b1.height ≤ b.height) ∧
        (r = none ↔ ¬ ∃ b, ActiveCandidate s locator b)) ∧
    (∀ (s : Store) (X Y Z : Block) (kx ky kz : HashRef) (locator : List HashRef),
      s.hBlock.fault = none →
      X.height = 3 → X.active = true → Y.height = 7 → Y.active = true →
      Z.height = 7 → Z.active = false →
      s.hBlock.find kx.toKey = some (serializeBlock X) →
      s.hBlock.find ky.toKey = some (serializeBlock Y) →
      s.hBlock.find kz.toKey = some (serializeBlock Z) →
      locator.Perm [kx, ky, kz] →
      getBlockByLocator s locator = .ok (some Y)) := by
  refine ⟨getBlockByLocator_spec, ?_⟩
  intro s X Y Z kx ky kz locator hfault hX3 hXa hY7 hYa hZ7 hZa hx hy hz hperm
  have hmem : ∀ k, k ∈ locator ↔ k = kx ∨ k = ky ∨ k = kz := by
    intro k
    rw [hperm.mem_iff]
    simp
  have hstored : ∀ k ∈ locator, storedBlock s k.toKey = some X ∨
      storedBlock s k.toKey = some Y ∨ storedBlock s k.toKey = some Z := by
    intro k hk
    rcases (hmem k).mp hk with rfl | rfl | rfl
    · left; simp [storedBlock, hx, deserializeBlock_serializeBlock]
    · right; left; simp [storedBlock, hy, deserializeBlock_serializeBlock]
    · right; right; simp [storedBlock, hz, deserializeBlock_serializeBlock]
  have hdec : ∀ k ∈ locator, ∀ d, s.hBlock.find k.toKey = some d →
      (deserializeBlock d).isSome = true := by
    intro k hk d hd
    have := hstored k hk
    simp only [storedBlock, hd, Option.some_bind] at this
    rcases this with h | h | h <;> simp [h]
  have hYc : ActiveCandidate s locator Y :=
    ⟨⟨ky, (hmem ky).mpr (Or.inr (Or.inl rfl)),
      by simp [storedBlock, hy, deserializeBlock_serializeBlock]⟩, hYa⟩
  obtain ⟨r, hr, h1, h2⟩ := getBlockByLocator_spec s locator hfault hdec
  rw [hr]
  cases r with
  | none => exact absurd ⟨Y, hYc⟩ (h2.mp rfl)
  | some b =>
    obtain ⟨⟨⟨k, hk, hkb⟩, hact⟩, hmax⟩ := h1 b rfl
    have hle := hmax Y hYc
    rcases hstored k hk with h | h | h
    · rw [h] at hkb; cases hkb; omega
    · rw [h] at hkb; cases hkb; rfl
    · rw [h] at hkb; cases hkb; rw [hZa] at hact; cases hact

theorem exampleChain_decodes (k : HashRef)
    (hk : k ∈ [HashRef.buffer (exampleHash blockZ), HashRef.buffer (exampleHash blockY),
      HashRef.buffer (exampleHash blockX)]) (d : JSString)
    (hd : exampleChain.hBlock.find k.toKey = some d) : (deserializeBlock d).isSome = true := by
  have hx : exampleChain.hBlock.find (exampleHash blockX).toBinaryString =
      some (serializeBlock blockX) := rfl
  have hy : exampleChain.hBlock.find (exampleHash blockY).toBinaryString =
      some (serializeBlock blockY) := rfl
  have hz : exampleChain.hBlock.find (exampleHash blockZ).toBinaryString =
      some (serializeBlock blockZ) := rfl
  simp only [List.mem_cons, List.mem_singleton, List.not_mem_nil, or_false] at hk
  rcases hk with rfl | rfl | rfl
  · rw [HashRef.toKey, hz] at hd
    cases hd
    rw [deserializeBlock_serializeBlock]; rfl
  · rw [HashRef.toKey, hy] at hd
    cases hd
    rw [deserializeBlock_serializeBlock]; rfl
  · rw [HashRef.toKey, hx] at hd
    cases hd
    rw [deserializeBlock_serializeBlock]; rfl

theorem locator_resolves_highest_active_witness :
    (∃ r, getBlockByLocator exampleChain
        [HashRef.buffer (exampleHash blockZ), HashRef.buffer (exampleHash blockY),
          HashRef.buffer (exampleHash blockX)] = .ok r ∧
      (∀ b, r = some b →
        ActiveCandidate exampleChain
          [HashRef.buffer (exampleHash blockZ), HashRef.buffer (exampleHash blockY),
            HashRef.buffer (exampleHash blockX)] b ∧
        ∀ b1, ActiveCandidate exampleChain
          [HashRef.buffer (exampleHash blockZ), HashRef.buffer (exampleHash blockY),
            HashRef.buffer (exampleHash blockX)] b1 → b1.height ≤ b.height) ∧
      (r = none ↔ ¬ ∃ b, ActiveCandidate exampleChain
          [HashRef.buffer (exampleHash blockZ), HashRef.buffer (exampleHash blockY),
            HashRef.buffer (exampleHash blockX)] b)) ∧
    getBlockByLocator exampleChain
        [HashRef.buffer (exampleHash blockZ), HashRef.buffer (exampleHash blockY),
          HashRef.buffer (exampleHash blockX)] = .ok (some blockY) :=
  ⟨locator_resolves_highest_active.1 exampleChain _ rfl exampleChain_decodes,
   locator_resolves_highest_active.2 exampleChain blockX blockY blockZ
     (HashRef.buffer (exampleHash blockX)) (HashRef.buffer (exampleHash blockY))
     (HashRef.buffer (exampleHash blockZ)) _ rfl rfl rfl rfl rfl rfl rfl rfl rfl rfl
     (by decide)⟩

/-! ### Saving a block -/

theorem Table.find_empty (k : JSString) : Table.empty.find k = none := rfl

theorem toBinaryString_injective : Function.Injective Buffer.toBinaryString := by
  intro a b h
  have := congrArg Buffer.ofBinaryString h
  rwa [Buffer.ofBinaryString_toBinaryString, Buffer.ofBinaryString_toBinaryString] at this

theorem toBinaryString_ne_nil (b : Buffer) (h : b ≠ []) : truthy b.toBinaryString = true := by
  cases b with
  | nil => exact absurd rfl h
  | cons x xs => rfl

/-- The three writes of `saveBlock`, case by case on the faults of the tables. -/
theorem saveBlock_cases (getHash : Block → Buffer) (s : Store) (b : Block) :
    (∀ e, s.hBlock.fault = some e →
      saveBlock getHash s b =
        ({ s with journal := s.journal ++
            [(Request.put .hBlock (getHash b).toBinaryString (serializeBlock b), some e)] },
          .error e)) ∧
    (s.hBlock.fault = none → ∀ e, s.bBlockHeightIndex.fault = some e →
      saveBlock getHash s b =
        ({ s with
            hBlock := (s.hBlock.put (getHash b).toBinaryString (serializeBlock b)).1
            journal := s.journal ++
              [(Request.put .hBlock (getHash b).toBinaryString (serializeBlock b), none),
               (Request.put .bBlockHeightIndex (formatHeightKey b.height)
                  (getHash b).toBinaryString, some e)] },
          .error e)) ∧
    (s.hBlock.fault = none → s.bBlockHeightIndex.fault = none →
      saveBlock getHash s b =
        ({ hBlock := (s.hBlock.put (getHash b).toBinaryString (serializeBlock b)).1
           hTransaction := s.hTransaction
           hBlockPrevIndex :=
             (s.hBlockPrevIndex.put b.prev_hash.toBinaryString (getHash b).toBinaryString).1
           bBlockHeightIndex :=
             (s.bBlockHeightIndex.put (formatHeightKey b.height) (getHash b).toBinaryString).1
           journal := s.journal ++
              [(Request.put .hBlock (getHash b).toBinaryString (serializeBlock b), none),
               (Request.put .bBlockHeightIndex (formatHeightKey b.height)
                  (getHash b).toBinaryString, none),
               (Request.put .hBlockPrevIndex b.prev_hash.toBinaryString
                  (getHash b).toBinaryString, s.hBlockPrevIndex.fault)] },
          match s.hBlockPrevIndex.fault with
          | none => .ok ()
          | some e => .error e)) := by
  refine ⟨?_, ?_, ?_⟩
  · intro e he
    simp [saveBlock, Store.putAsync, Store.table, Store.setTable, Table.put, he]
  · intro h1 e he
    simp [saveBlock, Store.putAsync, Store.table, Store.setTable, Table.put, h1, he]
  · intro h1 h2
    cases h3 : s.hBlockPrevIndex.fault <;>
      simp [saveBlock, Store.putAsync, Store.table, Store.setTable, Table.put, h1, h2, h3]

/-- A save that completes without error found no table at fault and wrote all three. -/
theorem saveBlock_success (getHash : Block → Buffer) (s : Store) (b : Block)
    (h : (saveBlock getHash s b).2 = .ok ()) :
    s.hBlock.fault = none ∧ s.bBlockHeightIndex.fault = none ∧ s.hBlockPrevIndex.fault = none ∧
    (saveBlock getHash s b).1.hBlock =
      (s.hBlock.put (getHash b).toBinaryString (serializeBlock b)).1 ∧
    (saveBlock getHash s b).1.bBlockHeightIndex =
      (s.bBlockHeightIndex.put (formatHeightKey b.height) (getHash b).toBinaryString).1 ∧
    (saveBlock getHash s b).1.hBlockPrevIndex =
      (s.hBlockPrevIndex.put b.prev_hash.toBinaryString (getHash b).toBinaryString).1 ∧
    (saveBlock getHash s b).1.hTransaction = s.hTransaction := by
  obtain ⟨c1, c2, c3⟩ := saveBlock_cases getHash s b
  cases h1 : s.hBlock.fault with
  | some e => rw [(c1 e h1)] at h; cases h
  | none =>
    cases h2 : s.bBlockHeightIndex.fault with
    | some e => rw [(c2 h1 e h2)] at h; cases h
    | none =>
      cases h3 : s.hBlockPrevIndex.fault with
      | some e => rw [(c3 h1 h2)] at h; simp [h3] at h
      | none =>
        rw [c3 h1 h2]
        simp

theorem saveBlock_healthy (getHash : Block → Buffer) (s : Store) (b : Block)
    (h1 : s.hBlock.fault = none) (h2 : s.bBlockHeightIndex.fault = none)
    (h3 : s.hBlockPrevIndex.fault = none) : (saveBlock getHash s b).2 = .ok () := by
  rw [(saveBlock_cases getHash s b).2.2 h1 h2]
  simp [h3]

/-! ### Point lookups -/

theorem getBlockByHash_of_find (s : Store) (k : HashRef) (b : Block)
    (hfault : s.hBlock.fault = none) (hfind : s.hBlock.find k.toKey = some (serializeBlock b)) :
    getBlockByHash s k = .ok (some b) := by
  have ht : truthy (serializeBlock b) = true :=
    truthy_of_decodes _ (by rw [deserializeBlock_serializeBlock]; rfl)
  simp [getBlockByHash, Table.get, hfault, hfind, ht, deserializeBlock_serializeBlock]

theorem getBlockByHeight_of_find (s : Store) (height : ℚ) (hash : JSString) (b : Block)
    (hfault : s.hBlock.fault = none) (hfault2 : s.bBlockHeightIndex.fault = none)
    (hindex : s.bBlockHeightIndex.find (formatHeightKey height) = some hash)
    (hne : truthy hash = true)
    (hfind : s.hBlock.find hash = some (serializeBlock b)) :
    getBlockByHeight s height = .ok (some b) := by
  have := getBlockByHash_of_find s (.string hash) b hfault hfind
  simp [getBlockByHeight, Table.get, hfault2, hindex, hne, this]

/-! ### The height index -/

theorem exampleHash_ne_nil (b : Block) : exampleHash b ≠ [] := by
  simp [exampleHash]

/-- After a successful save the height index holds the hash of the block
under the key of its height, and the block table holds its record. -/
theorem saveBlock_finds (getHash : Block → Buffer) (s : Store) (b : Block)
    (h : (saveBlock getHash s b).2 = .ok ()) :
    (saveBlock getHash s b).1.bBlockHeightIndex.find (formatHeightKey b.height) =
      some (getHash b).toBinaryString ∧
    (saveBlock getHash s b).1.hBlock.find (getHash b).toBinaryString =
      some (serializeBlock b) ∧
    (saveBlock getHash s b).1.hBlock.fault = none ∧
    (saveBlock getHash s b).1.bBlockHeightIndex.fault = none := by
  obtain ⟨h1, h2, _, e1, e2, _, _⟩ := saveBlock_success getHash s b h
  rw [e1, e2, Table.find_put _ _ _ _ h1, Table.find_put _ _ _ _ h2, Table.put_fault,
    Table.put_fault]
  simp [h1, h2]

/-- C6 (counterexample): saving the inactive block `blockZ` into the empty
store changes the height index, whose entry for height 7 then is the hash of
the block, and `getBlockByHeight` returns the inactive block. -/
theorem inactive_block_enters_height_index :
    blockZ.active = false ∧
    Store.empty.bBlockHeightIndex.find (formatHeightKey blockZ.height) = none ∧
    (saveBlock exampleHash Store.empty blockZ).1.bBlockHeightIndex.find
        (formatHeightKey blockZ.height) = some (exampleHash blockZ).toBinaryString ∧
    getBlockByHeight (saveBlock exampleHash Store.empty blockZ).1 blockZ.height =
      .ok (some blockZ) := by
  have hok : (saveBlock exampleHash Store.empty blockZ).2 = .ok () :=
    saveBlock_healthy _ _ _ rfl rfl rfl
  obtain ⟨f1, f2, f3, f4⟩ := saveBlock_finds exampleHash Store.empty blockZ hok
  exact ⟨rfl, rfl, f1,
    getBlockByHeight_of_find _ _ _ _ f3 f4 f1
      (toBinaryString_ne_nil _ (exampleHash_ne_nil _)) f2⟩

/-- C6 (amended): the height index is written by every successful save,
whether or not the block is active: afterwards the entry for
`formatHeightKey(b.height)` is the hash of `b`, and `getBlockByHeight` of that
height returns `b` (the hash not being empty), also when `b.active` is false. -/
theorem height_index_written_for_every_block (getHash : Block → Buffer) (s : Store) (b : Block)
    (hok : (saveBlock getHash s b).2 = .ok ()) (hne : getHash b ≠ []) :
    (saveBlock getHash s b).1.bBlockHeightIndex.find (formatHeightKey b.height) =
      some (getHash b).toBinaryString ∧
    getBlockByHeight (saveBlock getHash s b).1 b.height = .ok (some b) := by
  obtain ⟨f1, f2, f3, f4⟩ := saveBlock_finds getHash s b hok
  exact ⟨f1, getBlockByHeight_of_find _ _ _ _ f3 f4 f1 (toBinaryString_ne_nil _ hne) f2⟩

theorem height_index_written_for_every_block_witness :
    (saveBlock exampleHash exampleStore blockZ).2 = .ok () ∧ exampleHash blockZ ≠ [] ∧
    blockZ.active = false ∧
    (saveBlock exampleHash exampleStore blockZ).1.bBlockHeightIndex.find
        (formatHeightKey blockZ.height) = some (exampleHash blockZ).toBinaryString ∧
    getBlockByHeight (saveBlock exampleHash exampleStore blockZ).1 blockZ.height =
      .ok (some blockZ) :=
  ⟨saveBlock_healthy _ _ _ rfl rfl rfl, exampleHash_ne_nil _, rfl,
    height_index_written_for_every_block exampleHash exampleStore blockZ
      (saveBlock_healthy _ _ _ rfl rfl rfl) (exampleHash_ne_nil _)⟩

/-! ### Index integrity -/

theorem emptyDatabase_healthy (s : Store) (h1 : s.hBlock.fault = none)
    (h2 : s.hTransaction.fault = none) (h3 : s.bBlockHeightIndex.fault = none) :
    emptyDatabase s =
      ({ hBlock := { s.hBlock with entries := [] }
         hTransaction := { s.hTransaction with entries := [] }
         hBlockPrevIndex := s.hBlockPrevIndex
         bBlockHeightIndex := { s.bBlockHeightIndex with entries := [] }
         journal := s.journal ++
           [(Request.vanish .hBlock, none), (Request.vanish .hTransaction, none),
            (Request.vanish .bBlockHeightIndex, none)] }, .ok ()) := by
  simp [emptyDatabase, Store.vanishAsync, Store.table, Store.setTable, Table.vanish, h1, h2, h3]

/-- C7 (the code at the failing input): after saving `blockX` into the empty
store and then calling `emptyDatabase`, both with success, the prev-hash index
still maps the predecessor of `blockX` to the hash of `blockX`, while the
block table no longer has that hash: index integrity is lost. -/
theorem emptyDatabase_leaves_prev_index :
    (saveBlock exampleHash Store.empty blockX).2 = .ok () ∧
    (emptyDatabase (saveBlock exampleHash Store.empty blockX).1).2 = .ok () ∧
    (emptyDatabase (saveBlock exampleHash Store.empty blockX).1).1.hBlockPrevIndex.find
        blockX.prev_hash.toBinaryString = some (exampleHash blockX).toBinaryString ∧
    (emptyDatabase (saveBlock exampleHash Store.empty blockX).1).1.hBlock.find
        (exampleHash blockX).toBinaryString = none ∧
    ¬ IndexIntegrity (emptyDatabase (saveBlock exampleHash Store.empty blockX).1).1 := by
  have hok : (saveBlock exampleHash Store.empty blockX).2 = .ok () :=
    saveBlock_healthy _ _ _ rfl rfl rfl
  obtain ⟨h1, h2, h3, e1, e2, e3, e4⟩ := saveBlock_success exampleHash Store.empty blockX hok
  have g1 : (saveBlock exampleHash Store.empty blockX).1.hBlock.fault = none := by
    rw [e1, Table.put_fault]; rfl
  have g2 : (saveBlock exampleHash Store.empty blockX).1.hTransaction.fault = none := by
    rw [e4]; rfl
  have g3 : (saveBlock exampleHash Store.empty blockX).1.bBlockHeightIndex.fault = none := by
    rw [e2, Table.put_fault]; rfl
  have hprev : (emptyDatabase (saveBlock exampleHash Store.empty blockX).1).1.hBlockPrevIndex.find
      blockX.prev_hash.toBinaryString = some (exampleHash blockX).toBinaryString := by
    rw [emptyDatabase_healthy _ g1 g2 g3]
    simp only []
    rw [e3, Table.find_put _ _ _ _ h3]
    simp
  have hblock : (emptyDatabase (saveBlock exampleHash Store.empty blockX).1).1.hBlock.find
      (exampleHash blockX).toBinaryString = none := by
    rw [emptyDatabase_healthy _ g1 g2 g3]
    rfl
  refine ⟨hok, ?_, hprev, hblock, ?_⟩
  · rw [emptyDatabase_healthy _ g1 g2 g3]
  · intro hint
    have := hint.2 _ _ hprev
    rw [hblock] at this
    cases this

/-- A successful `saveBlock` keeps index integrity: the defect shown above is
in `emptyDatabase` alone. -/
theorem saveBlock_preserves_integrity (getHash : Block → Buffer) (s : Store) (b : Block)
    (hok : (saveBlock getHash s b).2 = .ok ()) (hint : IndexIntegrity s) :
    IndexIntegrity (saveBlock getHash s b).1 := by
  obtain ⟨h1, h2, h3, e1, e2, e3, _⟩ := saveBlock_success getHash s b hok
  have hkeep : ∀ h, (s.hBlock.find h).isSome = true →
      ((s.hBlock.put (getHash b).toBinaryString (serializeBlock b)).1.find h).isSome = true := by
    intro h hh
    rw [Table.find_put _ _ _ _ h1]
    split
    · rfl
    · exact hh
  have hnew : ((s.hBlock.put (getHash b).toBinaryString (serializeBlock b)).1.find
      (getHash b).toBinaryString).isSome = true := by
    rw [Table.find_put _ _ _ _ h1, if_pos rfl]; rfl
  constructor
  · intro k h hk
    rw [e2, Table.find_put _ _ _ _ h2] at hk
    rw [e1]
    split at hk
    · cases hk; exact hnew
    · exact hkeep h (hint.1 k h hk)
  · intro k h hk
    rw [e3, Table.find_put _ _ _ _ h3] at hk
    rw [e1]
    split at hk
    · cases hk; exact hnew
    · exact hkeep h (hint.2 k h hk)

/-! ### Order of the writes -/

/-- C8: `saveBlock` sends the block-table write first and sends an index
write only after the block-table write was acknowledged without error; the
height-index write precedes the prev-hash write. If the block-table write
fails, no index is written and the error reaches the callback; if the
height-index write fails, the prev-hash index is not written. -/
theorem save_writes_in_order (getHash : Block → Buffer) (s : Store) (b : Block) :
    (∀ e, s.hBlock.fault = some e →
      (saveBlock getHash s b).2 = .error e ∧
      (saveBlock getHash s b).1.journal = s.journal ++
        [(Request.put .hBlock (getHash b).toBinaryString (serializeBlock b), some e)] ∧
      (saveBlock getHash s b).1.bBlockHeightIndex = s.bBlockHeightIndex ∧
      (saveBlock getHash s b).1.hBlockPrevIndex = s.hBlockPrevIndex) ∧
    (s.hBlock.fault = none → ∀ e, s.bBlockHeightIndex.fault = some e →
      (saveBlock getHash s b).2 = .error e ∧
      (saveBlock getHash s b).1.journal = s.journal ++
        [(Request.put .hBlock (getHash b).toBinaryString (serializeBlock b), none),
         (Request.put .bBlockHeightIndex (formatHeightKey b.height)
            (getHash b).toBinaryString, some e)] ∧
      (saveBlock getHash s b).1.bBlockHeightIndex = s.bBlockHeightIndex ∧
      (saveBlock getHash s b).1.hBlockPrevIndex = s.hBlockPrevIndex) ∧
    (s.hBlock.fault = none → s.bBlockHeightIndex.fault = none →
      (saveBlock getHash s b).1.journal = s.journal ++
        [(Request.put .hBlock (getHash b).toBinaryString (serializeBlock b), none),
         (Request.put .bBlockHeightIndex (formatHeightKey b.height)
            (getHash b).toBinaryString, none),
         (Request.put .hBlockPrevIndex b.prev_hash.toBinaryString
            (getHash b).toBinaryString, s.hBlockPrevIndex.fault)] ∧
      (saveBlock getHash s b).2 =
        (match s.hBlockPrevIndex.fault with
         | none => .ok ()
         | some e => .error e)) := by
  obtain ⟨c1, c2, c3⟩ := saveBlock_cases getHash s b
  refine ⟨?_, ?_, ?_⟩
  · intro e he
    rw [c1 e he]
    exact ⟨rfl, rfl, rfl, rfl⟩
  · intro h1 e he
    rw [c2 h1 e he]
    exact ⟨rfl, rfl, rfl, rfl⟩
  · intro h1 h2
    rw [c3 h1 h2]
    exact ⟨rfl, rfl⟩

theorem save_writes_in_order_witness :
    ((saveBlock exampleHash blockTableDown blockX).2 = .error (Error.io 5) ∧
      (saveBlock exampleHash blockTableDown blockX).1.journal = blockTableDown.journal ++
        [(Request.put .hBlock (exampleHash blockX).toBinaryString (serializeBlock blockX),
          some (Error.io 5))] ∧
      (saveBlock exampleHash blockTableDown blockX).1.bBlockHeightIndex =
        blockTableDown.bBlockHeightIndex ∧
      (saveBlock exampleHash blockTableDown blockX).1.hBlockPrevIndex =
        blockTableDown.hBlockPrevIndex) ∧
    ((saveBlock exampleHash heightIndexDown blockX).2 = .error (Error.io 6) ∧
      (saveBlock exampleHash heightIndexDown blockX).1.journal = heightIndexDown.journal ++
        [(Request.put .hBlock (exampleHash blockX).toBinaryString (serializeBlock blockX), none),
         (Request.put .bBlockHeightIndex (formatHeightKey blockX.height)
            (exampleHash blockX).toBinaryString, some (Error.io 6))] ∧
      (saveBlock exampleHash heightIndexDown blockX).1.bBlockHeightIndex =
        heightIndexDown.bBlockHeightIndex ∧
      (saveBlock exampleHash heightIndexDown blockX).1.hBlockPrevIndex =
        heightIndexDown.hBlockPrevIndex) :=
  ⟨(save_writes_in_order exampleHash blockTableDown blockX).1 (Error.io 5) rfl,
   (save_writes_in_order exampleHash heightIndexDown blockX).2.1 rfl (Error.io 6) rfl⟩

/-! ### Last write wins -/

/-- C9: for active blocks `B1` and `B2` of the same height `h < 2^32` and with
different hashes, after a successful `saveBlock(B1)` followed by a successful
`saveBlock(B2)` on any store, `getBlockByHeight(h)` returns `B2` and
`getBlockByHash(hash(B1))` still returns `B1` (the hash of `B2` not being the
empty string). -/
theorem last_saved_block_wins_height (getHash : Block → Buffer) (s : Store) (B1 B2 : Block)
    (h : Nat) (_ha1 : B1.active = true) (_ha2 : B2.active = true) (_hh1 : B1.height = h)
    (hh2 : B2.height = h) (_hb : h < 2 ^ 32) (hne : getHash B1 ≠ getHash B2)
    (hnonempty : getHash B2 ≠ [])
    (hok1 : (saveBlock getHash s B1).2 = .ok ())
    (hok2 : (saveBlock getHash (saveBlock getHash s B1).1 B2).2 = .ok ()) :
    getBlockByHeight (saveBlock getHash (saveBlock getHash s B1).1 B2).1 h = .ok (some B2) ∧
    getBlockByHash (saveBlock getHash (saveBlock getHash s B1).1 B2).1
      (HashRef.buffer (getHash B1)) = .ok (some B1) := by
  obtain ⟨_, f2, _, _⟩ := saveBlock_finds getHash s B1 hok1
  obtain ⟨g1, g2, g3, g4⟩ := saveBlock_finds getHash _ B2 hok2
  obtain ⟨k1, _, _, e1, _, _, _⟩ := saveBlock_success getHash _ B2 hok2
  constructor
  · rw [hh2] at g1
    exact getBlockByHeight_of_find _ _ _ _ g3 g4 g1 (toBinaryString_ne_nil _ hnonempty) g2
  · apply getBlockByHash_of_find _ _ _ g3
    rw [e1, HashRef.toKey, Table.find_put _ _ _ _ k1,
      if_neg (fun hc => hne (toBinaryString_injective hc)), f2]

theorem last_saved_block_wins_height_witness :
    blockY.active = true ∧ { blockY with nonce := 9 }.active = true ∧
    blockY.height = 7 ∧ { blockY with nonce := 9 }.height = 7 ∧ 7 < 2 ^ 32 ∧
    exampleHash blockY ≠ exampleHash { blockY with nonce := 9 } ∧
    getBlockByHeight
      (saveBlock exampleHash (saveBlock exampleHash exampleStore blockY).1
        { blockY with nonce := 9 }).1 (7 : ℕ) = .ok (some { blockY with nonce := 9 }) ∧
    getBlockByHash
      (saveBlock exampleHash (saveBlock exampleHash exampleStore blockY).1
        { blockY with nonce := 9 }).1 (HashRef.buffer (exampleHash blockY)) = .ok (some blockY) :=
  have hok1 : (saveBlock exampleHash exampleStore blockY).2 = .ok () :=
    saveBlock_healthy _ _ _ rfl rfl rfl
  have hok2 : (saveBlock exampleHash (saveBlock exampleHash exampleStore blockY).1
      { blockY with nonce := 9 }).2 = .ok () := by
    obtain ⟨_, _, k3, e1, e2, e3, _⟩ := saveBlock_success exampleHash exampleStore blockY hok1
    apply saveBlock_healthy
    · rw [e1, Table.put_fault]; rfl
    · rw [e2, Table.put_fault]; rfl
    · rw [e3, Table.put_fault]; rfl
  ⟨rfl, rfl, rfl, rfl, by decide, by decide,
    last_saved_block_wins_height exampleHash exampleStore blockY { blockY with nonce := 9 } 7
      rfl rfl rfl rfl (by decide) (by decide) (exampleHash_ne_nil _) hok1 hok2⟩

/-! ### The top of the height index -/

theorem keyLt_irrefl (a : JSString) : keyLt a a = false := by
  induction a with
  | nil => rfl
  | cons x xs ih => simp [keyLt, ih]

theorem keyLt_trans (a b c : JSString) (hab : keyLt a b = true) (hbc : keyLt b c = true) :
    keyLt a c = true := by
  induction a generalizing b c with
  | nil =>
    cases b with
    | nil => simp [keyLt] at hab
    | cons y ys =>
      cases c with
      | nil => simp [keyLt] at hbc
      | cons z zs => rfl
  | cons x xs ih =>
    cases b with
    | nil => simp [keyLt] at hab
    | cons y ys =>
      cases c with
      | nil => simp [keyLt] at hbc
      | cons z zs =>
        simp only [keyLt, Bool.or_eq_true, decide_eq_true_eq, Bool.and_eq_true, beq_iff_eq]
          at hab hbc ⊢
        rcases hab with hab | ⟨rfl, hab⟩
        · rcases hbc with hbc | ⟨rfl, _⟩
          · exact Or.inl (lt_trans hab hbc)
          · exact Or.inl hab
        · rcases hbc with hbc | ⟨rfl, hbc⟩
          · exact Or.inl hbc
          · exact Or.inr ⟨rfl, ih ys zs hab hbc⟩

theorem maxKey_spec (ks : List JSString) :
    (maxKey ks = none → ks = []) ∧
    (∀ m, maxKey ks = some m → m ∈ ks ∧ ∀ k ∈ ks, keyLt m k = false) := by
  induction ks with
  | nil => simp [maxKey]
  | cons k rest ih =>
    obtain ⟨ih1, ih2⟩ := ih
    cases hm : maxKey rest with
    | none =>
      have hnil := ih1 hm
      subst hnil
      simp [maxKey, keyLt_irrefl]
    | some m1 =>
      obtain ⟨hmem, hmax⟩ := ih2 m1 hm
      by_cases hlt : keyLt m1 k = true
      · simp only [maxKey, hm, hlt, if_true, reduceCtorEq, false_implies, Option.some.injEq,
          true_and]
        intro m hmk
        subst hmk
        refine ⟨by simp, ?_⟩
        intro x hx
        rcases List.mem_cons.mp hx with rfl | hx
        · exact keyLt_irrefl _
        · cases hkx : keyLt k x with
          | false => rfl
          | true =>
            have := keyLt_trans _ _ _ hlt hkx
            rw [hmax x hx] at this
            cases this
      · simp only [maxKey, hm, hlt, Bool.false_eq_true, if_false, reduceCtorEq, false_implies,
          Option.some.injEq, true_and]
        intro m hmk
        subst hmk
        refine ⟨by simp [hmem], ?_⟩
        intro x hx
        rcases List.mem_cons.mp hx with rfl | hx
        · simpa using hlt
        · exact hmax x hx

theorem lookup_isSome_iff (k : JSString) (l : List (JSString × JSString)) :
    (l.lookup k).isSome = true ↔ k ∈ l.map Prod.fst := by
  induction l with
  | nil => simp
  | cons kv rest ih =>
    obtain ⟨a, b⟩ := kv
    by_cases h : k = a
    · subst h; simp [List.lookup]
    · have hb : (k == a) = false := by simpa using h
      simp only [List.lookup, hb, ih, List.map_cons, List.mem_cons, h, false_or]

theorem savedBlocks_empty (getHash : Block → Buffer) : SavedBlocks getHash Store.empty [] := by
  refine ⟨rfl, rfl, rfl, ?_, by simp, by simp⟩
  intro k v h
  cases h

theorem savedBlocks_step (getHash : Block → Buffer) (s : Store) (bs : List Block) (b : Block)
    (h : SavedBlocks getHash s bs) :
    SavedBlocks getHash (saveBlock getHash s b).1 (bs ++ [b]) := by
  obtain ⟨h1, h2, h3, h4, h5, h6⟩ := h
  have hok := saveBlock_healthy getHash s b h1 h2 h3
  obtain ⟨_, _, _, e1, e2, e3, _⟩ := saveBlock_success getHash s b hok
  refine ⟨by rw [e1, Table.put_fault, h1], by rw [e2, Table.put_fault, h2],
    by rw [e3, Table.put_fault, h3], ?_, ?_, ?_⟩
  · intro k v hkv
    rw [e2, Table.find_put _ _ _ _ h2] at hkv
    by_cases hk : k = formatHeightKey b.height
    · rw [if_pos hk] at hkv
      cases hkv
      exact ⟨b, by simp, hk, rfl⟩
    · rw [if_neg hk] at hkv
      obtain ⟨b1, hb1, r1, r2⟩ := h4 k v hkv
      exact ⟨b1, by simp [hb1], r1, r2⟩
  · intro x hx
    rw [e2, Table.find_put _ _ _ _ h2]
    by_cases hk : formatHeightKey x.height = formatHeightKey b.height
    · rw [if_pos hk]; rfl
    · rw [if_neg hk]
      rcases List.mem_append.mp hx with hx | hx
      · exact h5 x hx
      · simp only [List.mem_singleton] at hx
        subst hx
        exact absurd rfl hk
  · intro x hx
    rw [e1]
    by_cases hk : (getHash x).toBinaryString = (getHash b).toBinaryString
    · refine ⟨b, by simp, ?_, (toBinaryString_injective hk).symm⟩
      rw [Table.find_put _ _ _ _ h1, if_pos hk]
    · rcases List.mem_append.mp hx with hx | hx
      · obtain ⟨b1, hb1, r1, r2⟩ := h6 x hx
        refine ⟨b1, by simp [hb1], ?_, r2⟩
        rw [Table.find_put _ _ _ _ h1, if_neg hk, r1]
      · simp only [List.mem_singleton] at hx
        subst hx
        exact absurd rfl hk

theorem savedBlocks_saveBlocks (getHash : Block → Buffer) (s : Store) (pre bs : List Block)
    (h : SavedBlocks getHash s pre) :
    SavedBlocks getHash (saveBlocks getHash s bs) (pre ++ bs) := by
  induction bs generalizing s pre with
  | nil => simpa [saveBlocks] using h
  | cons b rest ih =>
    have := ih (saveBlock getHash s b).1 (pre ++ [b]) (savedBlocks_step getHash s pre b h)
    simpa [saveBlocks, List.append_assoc] using this

/-- With the blocks of `bs` saved, the cursor at the end of the height index
leads to a saved block of the greatest height. -/
theorem getTopBlock_of_savedBlocks (getHash : Block → Buffer) (s : Store) (bs : List Block)
    (h : SavedBlocks getHash s bs) (hne : bs ≠ []) (hb : ∀ b ∈ bs, b.height < 2 ^ 32)
    (hhash : ∀ a ∈ bs, ∀ b ∈ bs, getHash a = getHash b → a.height = b.height) :
    ∃ top, getTopBlock s = .ok (some top) ∧ top ∈ bs ∧ ∀ b ∈ bs, b.height ≤ top.height := by
  obtain ⟨h1, h2, _, h4, h5, h6⟩ := h
  obtain ⟨hnone, hsome⟩ := maxKey_spec (s.bBlockHeightIndex.entries.map Prod.fst)
  cases hm : maxKey (s.bBlockHeightIndex.entries.map Prod.fst) with
  | none =>
    exfalso
    obtain ⟨b0, hb0⟩ := List.exists_mem_of_ne_nil bs hne
    have := h5 b0 hb0
    rw [Table.find, lookup_isSome_iff, hnone hm] at this
    simp at this
  | some m =>
    obtain ⟨hmem, hmax⟩ := hsome m hm
    have hfound : (s.bBlockHeightIndex.find m).isSome = true := by
      rw [Table.find, lookup_isSome_iff]; exact hmem
    obtain ⟨v, hv⟩ := Option.isSome_iff_exists.mp hfound
    obtain ⟨b, hbmem, hkey, hval⟩ := h4 m v hv
    obtain ⟨b1, hb1mem, hrec, hsame⟩ := h6 b hbmem
    have hheight : b1.height = b.height := hhash b1 hb1mem b hbmem hsame
    refine ⟨b1, ?_, hb1mem, ?_⟩
    · have hget : getBlockByHash s (.string v) = .ok (some b1) := by
        apply getBlockByHash_of_find _ _ _ h1
        rw [HashRef.toKey, hval, hrec]
      simp [getTopBlock, Table.cursor, Cursor.jumpBack, Cursor.get, h2, hm, hv, hget]
    · intro x hx
      have hpresent := h5 x hx
      rw [Table.find, lookup_isSome_iff] at hpresent
      have hnot := hmax _ hpresent
      rw [hkey] at hnot
      have := (keyLt_formatHeightKey_iff b.height x.height (hb b hbmem) (hb x hx)).not.mp
        (by rw [hnot]; simp)
      omega

/-- C10: for every non-empty sequence of blocks with heights below `2^32`
(blocks of the same hash having the same height) saved one after the other
into the empty store, `getTopBlock` returns a saved block whose height is the
greatest of the saved heights; this holds for every order of saving, so every
rearrangement of the sequence yields a block of the same height. -/
theorem top_block_has_greatest_height (getHash : Block → Buffer) (bs : List Block)
    (hne : bs ≠ []) (hb : ∀ b ∈ bs, b.height < 2 ^ 32)
    (hhash : ∀ a ∈ bs, ∀ b ∈ bs, getHash a = getHash b → a.height = b.height) :
    ∃ top, getTopBlock (saveBlocks getHash Store.empty bs) = .ok (some top) ∧ top ∈ bs ∧
      (∀ b ∈ bs, b.height ≤ top.height) ∧
      ∀ bs1, bs1.Perm bs →
        ∃ top1, getTopBlock (saveBlocks getHash Store.empty bs1) = .ok (some top1) ∧
          top1 ∈ bs ∧ top1.height = top.height := by
  have key : ∀ l : List Block, l ≠ [] → (∀ b ∈ l, b.height < 2 ^ 32) →
      (∀ a ∈ l, ∀ b ∈ l, getHash a = getHash b → a.height = b.height) →
      ∃ top, getTopBlock (saveBlocks getHash Store.empty l) = .ok (some top) ∧ top ∈ l ∧
        ∀ b ∈ l, b.height ≤ top.height := by
    intro l hl hlb hlh
    have hs := savedBlocks_saveBlocks getHash Store.empty [] l (savedBlocks_empty getHash)
    rw [List.nil_append] at hs
    exact getTopBlock_of_savedBlocks getHash _ l hs hl hlb hlh
  obtain ⟨top, ht1, ht2, ht3⟩ := key bs hne hb hhash
  refine ⟨top, ht1, ht2, ht3, ?_⟩
  intro bs1 hperm
  have hne1 : bs1 ≠ [] := by
    intro h0
    rw [h0] at hperm
    exact hne hperm.symm.eq_nil
  obtain ⟨top1, g1, g2, g3⟩ := key bs1 hne1
    (fun b hb1 => hb b (hperm.mem_iff.mp hb1))
    (fun a ha b hb1 => hhash a (hperm.mem_iff.mp ha) b (hperm.mem_iff.mp hb1))
  refine ⟨top1, g1, hperm.mem_iff.mp g2, ?_⟩
  have le1 := g3 top (hperm.mem_iff.mpr ht2)
  have le2 := ht3 top1 (hperm.mem_iff.mp g2)
  omega

theorem top_block_has_greatest_height_witness :
    [block9, block1, block2] ≠ [] ∧
    (∀ b ∈ [block9, block1, block2], b.height < 2 ^ 32) ∧
    (∀ a ∈ [block9, block1, block2], ∀ b ∈ [block9, block1, block2],
      exampleHash a = exampleHash b → a.height = b.height) ∧
    ∃ top, getTopBlock (saveBlocks exampleHash Store.empty [block9, block1, block2]) =
        .ok (some top) ∧ top ∈ [block9, block1, block2] ∧
      (∀ b ∈ [block9, block1, block2], b.height ≤ top.height) ∧
      ∀ bs1, bs1.Perm [block9, block1, block2] →
        ∃ top1, getTopBlock (saveBlocks exampleHash Store.empty bs1) = .ok (some top1) ∧
          top1 ∈ [block9, block1, block2] ∧ top1.height = top.height :=
  ⟨by decide, by decide, by decide,
    top_block_has_greatest_height exampleHash [block9, block1, block2] (by decide) (by decide)
      (by decide)⟩

/-! ### The empty height index -/

theorem jumpBack_of_empty (t : Table) (hfault : t.fault = none) (hempty : t.entries = []) :
    t.cursor.jumpBack = (t.cursor, some Error.emptyStore) := by
  simp [Table.cursor, Cursor.jumpBack, hfault, hempty, maxKey]

/-- C11: when the height index is empty, so that the cursor's jump to the
last record reports `EmptyStore`, `getTopBlock` passes `EmptyStore` to the
callback, and the jump is the only request it sends: the cursor is not read
and the block table is not queried, whatever the block table holds. More
generally, any error the jump reports is passed on in this way. -/
theorem top_block_of_empty_index (s : Store) :
    (s.bBlockHeightIndex.fault = none → s.bBlockHeightIndex.entries = [] →
      (s.bBlockHeightIndex.cursor.jumpBack).2 = some Error.emptyStore ∧
      getTopBlock s = .error Error.emptyStore ∧
      getTopBlockReads s = [ReadRequest.jumpBack .bBlockHeightIndex]) ∧
    (∀ e, (s.bBlockHeightIndex.cursor.jumpBack).2 = some e →
      getTopBlock s = .error e ∧
      getTopBlockReads s = [ReadRequest.jumpBack .bBlockHeightIndex]) := by
  have general : ∀ e, (s.bBlockHeightIndex.cursor.jumpBack).2 = some e →
      getTopBlock s = .error e ∧
      getTopBlockReads s = [ReadRequest.jumpBack .bBlockHeightIndex] := by
    intro e he
    have hj : s.bBlockHeightIndex.cursor.jumpBack =
        ((s.bBlockHeightIndex.cursor.jumpBack).1, some e) := Prod.ext rfl he
    constructor
    · unfold getTopBlock
      simp only []
      rw [hj]
    · unfold getTopBlockReads
      simp only []
      rw [hj]
  refine ⟨?_, general⟩
  intro hfault hempty
  have hj := jumpBack_of_empty _ hfault hempty
  have he : (s.bBlockHeightIndex.cursor.jumpBack).2 = some Error.emptyStore := by rw [hj]
  exact ⟨he, general _ he⟩

theorem top_block_of_empty_index_witness :
    exampleStore.bBlockHeightIndex.fault = none ∧ exampleStore.bBlockHeightIndex.entries = [] ∧
    exampleStore.hBlock.entries ≠ [] ∧
    (exampleStore.bBlockHeightIndex.cursor.jumpBack).2 = some Error.emptyStore ∧
    getTopBlock exampleStore = .error Error.emptyStore ∧
    getTopBlockReads exampleStore = [ReadRequest.jumpBack .bBlockHeightIndex] :=
  ⟨rfl, rfl, by simp [exampleStore], (top_block_of_empty_index exampleStore).1 rfl rfl⟩

/-! ### The prev-hash index -/

/-- After a successful save the prev-hash index holds the hash of the block
under its predecessor's hash. -/
theorem saveBlock_finds_prev (getHash : Block → Buffer) (s : Store) (b : Block)
    (h : (saveBlock getHash s b).2 = .ok ()) :
    (saveBlock getHash s b).1.hBlockPrevIndex.find b.prev_hash.toBinaryString =
      some (getHash b).toBinaryString ∧
    (saveBlock getHash s b).1.hBlockPrevIndex.fault = none := by
  obtain ⟨_, _, h3, _, _, e3, _⟩ := saveBlock_success getHash s b h
  rw [e3, Table.find_put _ _ _ _ h3, Table.put_fault]
  simp [h3]

theorem getBlockByPrev_of_find (s : Store) (prev : Buffer) (hash : JSString) (b : Block)
    (hfault : s.hBlock.fault = none) (hfault2 : s.hBlockPrevIndex.fault = none)
    (hindex : s.hBlockPrevIndex.find prev.toBinaryString = some hash)
    (hne : truthy hash = true)
    (hfind : s.hBlock.find hash = some (serializeBlock b)) :
    getBlockByPrev s (.hash (.buffer prev)) = .ok (some b) := by
  have := getBlockByHash_of_find s (.string hash) b hfault hfind
  simp [getBlockByPrev, HashRef.toKey, Table.get, hfault2, hindex, hne, this]

theorem getBlockByPrev_after_save (getHash : Block → Buffer) (s : Store) (b : Block)
    (hok : (saveBlock getHash s b).2 = .ok ()) (hne : getHash b ≠ []) :
    getBlockByPrev (saveBlock getHash s b).1 (.hash (.buffer b.prev_hash)) = .ok (some b) := by
  obtain ⟨_, f2, f3, _⟩ := saveBlock_finds getHash s b hok
  obtain ⟨p1, p2⟩ := saveBlock_finds_prev getHash s b hok
  exact getBlockByPrev_of_find _ _ _ _ f3 p2 p1 (toBinaryString_ne_nil _ hne) f2

/-- C12: the prev-hash index is written by every successful save, whether or
not the block is active, and keeps the child saved last: after a successful
`saveBlock(b)`, `getBlockByPrev(b.prev_hash)` returns `b`; and after
successful saves of `C1` and then `C2`, two blocks with the same `prev_hash`
and different hashes, `getBlockByPrev` of that `prev_hash` returns `C2` (the
hash of the saved block not being the empty string). -/
theorem prev_index_keeps_last_child (getHash : Block → Buffer) (s : Store) :
    (∀ b : Block, (saveBlock getHash s b).2 = .ok () → getHash b ≠ [] →
      (saveBlock getHash s b).1.hBlockPrevIndex.find b.prev_hash.toBinaryString =
        some (getHash b).toBinaryString ∧
      getBlockByPrev (saveBlock getHash s b).1 (.hash (.buffer b.prev_hash)) = .ok (some b)) ∧
    (∀ C1 C2 : Block, C1.prev_hash = C2.prev_hash → getHash C1 ≠ getHash C2 →
      (saveBlock getHash s C1).2 = .ok () →
      (saveBlock getHash (saveBlock getHash s C1).1 C2).2 = .ok () → getHash C2 ≠ [] →
      getBlockByPrev (saveBlock getHash (saveBlock getHash s C1).1 C2).1
        (.hash (.buffer C1.prev_hash)) = .ok (some C2)) := by
  constructor
  · intro b hok hne
    exact ⟨(saveBlock_finds_prev getHash s b hok).1, getBlockByPrev_after_save getHash s b hok hne⟩
  · intro C1 C2 hprev _ _ hok2 hne
    rw [hprev]
    exact getBlockByPrev_after_save getHash _ C2 hok2 hne

theorem saveBlock_keeps_healthy (getHash : Block → Buffer) (s : Store) (b : Block)
    (h1 : s.hBlock.fault = none) (h2 : s.bBlockHeightIndex.fault = none)
    (h3 : s.hBlockPrevIndex.fault = none) :
    (saveBlock getHash s b).1.hBlock.fault = none ∧
    (saveBlock getHash s b).1.bBlockHeightIndex.fault = none ∧
    (saveBlock getHash s b).1.hBlockPrevIndex.fault = none := by
  obtain ⟨_, _, _, e1, e2, e3, _⟩ :=
    saveBlock_success getHash s b (saveBlock_healthy getHash s b h1 h2 h3)
  rw [e1, e2, e3, Table.put_fault, Table.put_fault, Table.put_fault]
  exact ⟨h1, h2, h3⟩

theorem prev_index_keeps_last_child_witness :
    blockZ.active = false ∧ blockY.prev_hash = blockZ.prev_hash ∧
    exampleHash blockY ≠ exampleHash blockZ ∧
    ((saveBlock exampleHash exampleStore blockZ).1.hBlockPrevIndex.find
        blockZ.prev_hash.toBinaryString = some (exampleHash blockZ).toBinaryString ∧
      getBlockByPrev (saveBlock exampleHash exampleStore blockZ).1
        (.hash (.buffer blockZ.prev_hash)) = .ok (some blockZ)) ∧
    getBlockByPrev (saveBlock exampleHash (saveBlock exampleHash exampleStore blockY).1 blockZ).1
      (.hash (.buffer blockY.prev_hash)) = .ok (some blockZ) :=
  have hok1 : (saveBlock exampleHash exampleStore blockY).2 = .ok () :=
    saveBlock_healthy _ _ _ rfl rfl rfl
  have hk := saveBlock_keeps_healthy exampleHash exampleStore blockY rfl rfl rfl
  ⟨rfl, rfl, by decide,
    (prev_index_keeps_last_child exampleHash exampleStore).1 blockZ
      (saveBlock_healthy _ _ _ rfl rfl rfl) (exampleHash_ne_nil _),
    (prev_index_keeps_last_child exampleHash exampleStore).2 blockY blockZ rfl (by decide) hok1
      (saveBlock_healthy _ _ _ hk.1 hk.2.1 hk.2.2) (exampleHash_ne_nil _)⟩

/-! ### Misses and engine failures of the point lookups -/

theorem getTransactionByHash_of_none {Transaction : Type} (schema : TxSchema Transaction)
    (s : Store) (hash : HashRef) (h : s.hTransaction.get hash.toKey = .ok none) :
    getTransactionByHash schema s hash = .thrown Error.typeError := by
  simp [getTransactionByHash, h]

theorem getTransactionByHash_of_error {Transaction : Type} (schema : TxSchema Transaction)
    (s : Store) (hash : HashRef) (e : Error) (h : s.hTransaction.fault = some e) :
    getTransactionByHash schema s hash = .thrown Error.typeError := by
  simp [getTransactionByHash, Table.get, h]

/-- C13 (the code at the failing input): for a hash that is not a key of the
transaction table, `getTransactionByHash` hands the absent value to
`deserializeTransaction`, whose `new Buffer(undefined, 'binary')` throws: the
callback is never invoked, and `knowsTransaction` does not answer `false`
either. For a hash that is not a key of the block table, `getBlockByHash`
completes with null and `knowsBlock` with `false`. -/
theorem transaction_miss_throws {Transaction : Type} (schema : TxSchema Transaction)
    (s : Store) (hash : HashRef) :
    (s.hTransaction.fault = none → s.hTransaction.find hash.toKey = none →
      getTransactionByHash schema s hash = .thrown Error.typeError ∧
      knowsTransaction schema s hash = .thrown Error.typeError) ∧
    (s.hBlock.fault = none → s.hBlock.find hash.toKey = none →
      getBlockByHash s hash = .ok none ∧ knowsBlock s hash = .ok false) := by
  constructor
  · intro hf hn
    have h := getTransactionByHash_of_none schema s hash (by simp [Table.get, hf, hn])
    exact ⟨h, by simp [knowsTransaction, h]⟩
  · intro hf hn
    have h : getBlockByHash s hash = .ok none := by
      simp [getBlockByHash, Table.get, hf, hn]
    exact ⟨h, by simp [knowsBlock, h]⟩

theorem transaction_miss_throws_witness :
    exampleStore.hTransaction.fault = none ∧
    exampleStore.hTransaction.find (HashRef.string [9, 8]).toKey = none ∧
    getTransactionByHash exampleSchema exampleStore (HashRef.string [9, 8]) =
      .thrown Error.typeError ∧
    knowsTransaction exampleSchema exampleStore (HashRef.string [9, 8]) =
      .thrown Error.typeError :=
  ⟨rfl, by decide,
    (transaction_miss_throws exampleSchema exampleStore (HashRef.string [9, 8])).1 rfl
      (by decide)⟩

/-- C14 (the code at the failing input): for every argument,
`countConflictingTransactions` calls back with no error and the result zero,
while `getConflictingTransactions` throws the error `not implemented`. -/
theorem count_conflicting_reports_zero {α β : Type} (srcOutCondList : α) :
    countConflictingTransactions srcOutCondList = .ok 0 ∧
    countConflictingTransactions srcOutCondList ≠ .thrown Error.notImplemented ∧
    countConflictingTransactions srcOutCondList ≠ .error Error.notImplemented ∧
    (getConflictingTransactions srcOutCondList : Completion β) =
      .thrown Error.notImplemented := by
  refine ⟨rfl, ?_, ?_, rfl⟩ <;> simp [countConflictingTransactions]

/-- C16 (the code at the failing input): when the engine's `get` on the
transaction table reports an error, `getTransactionByHash` does not pass it
on: it decodes the absent value, which throws, and the callback is never
invoked. The five other lookups pass the engine's error to their callback. -/
theorem transaction_lookup_drops_engine_error {Transaction : Type}
    (schema : TxSchema Transaction) (s : Store) (e : Error) :
    (s.hTransaction.fault = some e →
      ∀ hash, getTransactionByHash schema s hash = .thrown Error.typeError ∧
        getTransactionByHash schema s hash ≠ .error e) ∧
    (s.hTransaction.fault = some e →
      ∀ hashes, getTransactionsByHashes schema s hashes = .error e) ∧
    (s.hBlock.fault = some e → ∀ hash, getBlockByHash s hash = .error e) ∧
    (s.hBlock.fault = some e → ∀ hashes, getBlocksByHashes s hashes = .error e) ∧
    (s.bBlockHeightIndex.fault = some e → ∀ height, getBlockByHeight s height = .error e) ∧
    (s.hBlock.fault = some e → ∀ height hash,
      s.bBlockHeightIndex.get (formatHeightKey height) = .ok (some hash) →
      truthy hash = true → getBlockByHeight s height = .error e) ∧
    (s.hBlockPrevIndex.fault = some e → ∀ block, getBlockByPrev s block = .error e) ∧
    (s.hBlock.fault = some e → ∀ prev hash,
      s.hBlockPrevIndex.get (HashRef.toKey prev) = .ok (some hash) →
      truthy hash = true → getBlockByPrev s (.hash prev) = .error e) := by
  have hb : s.hBlock.fault = some e → ∀ hash, getBlockByHash s hash = .error e := by
    intro h hash
    simp [getBlockByHash, Table.get, h]
  refine ⟨?_, ?_, hb, ?_, ?_, ?_, ?_, ?_⟩
  · intro h hash
    rw [getTransactionByHash_of_error schema s hash e h]
    exact ⟨rfl, by simp⟩
  · intro h hashes
    simp [getTransactionsByHashes, Table.getBulk, h]
  · intro h hashes
    simp [getBlocksByHashes, Table.getBulk, h]
  · intro h height
    simp [getBlockByHeight, Table.get, h]
  · intro h height hash hget ht
    simp [getBlockByHeight, hget, ht, hb h]
  · intro h block
    cases block <;> simp [getBlockByPrev, Table.get, h]
  · intro h prev hash hget ht
    simp [getBlockByPrev, hget, ht, hb h]

theorem transaction_lookup_drops_engine_error_witness :
    transactionTableDown.hTransaction.fault = some (Error.io 7) ∧
    getTransactionByHash exampleSchema transactionTableDown (HashRef.string [9, 9]) =
      .thrown Error.typeError ∧
    getTransactionByHash exampleSchema transactionTableDown (HashRef.string [9, 9]) ≠
      .error (Error.io 7) :=
  ⟨rfl,
    (transaction_lookup_drops_engine_error exampleSchema transactionTableDown (Error.io 7)).1 rfl
      (HashRef.string [9, 9])⟩

/-! ### The transaction codec -/

theorem Buffer.toBinaryString_ofBinaryString (s : JSString) (h : ∀ c ∈ s, c < 256) :
    (Buffer.ofBinaryString s).toBinaryString = s := by
  induction s with
  | nil => rfl
  | cons c cs ih =>
    have hc : c < 256 := h c (by simp)
    have ih1 := ih (fun x hx => h x (by simp [hx]))
    simp only [Buffer.toBinaryString, Buffer.ofBinaryString, List.map_cons, List.map_map] at ih1 ⊢
    rw [ih1, Nat.mod_eq_of_lt hc]

/-- C15: the conversions around the stored blob are inverse to each other:
every byte sequence comes back from its binary string, and every string of
code units below 256 comes back from its bytes; so the parser receives
exactly the bytes `t.serialize()` produced, and for every transaction `t`
that the schema's parser recovers from its serialization,
`deserializeTransaction(serializeTransaction(t))` is `t`. -/
theorem transaction_round_trip {Transaction : Type} (schema : TxSchema Transaction) :
    (∀ bytes : Buffer, Buffer.ofBinaryString bytes.toBinaryString = bytes) ∧
    (∀ s : JSString, (∀ c ∈ s, c < 256) → (Buffer.ofBinaryString s).toBinaryString = s) ∧
    (∀ t : Transaction,
      deserializeTransaction schema (serializeTransaction schema t) =
        schema.parseTx (schema.serialize t)) ∧
    (∀ t : Transaction, schema.parseTx (schema.serialize t) = some t →
      deserializeTransaction schema (serializeTransaction schema t) = some t) := by
  have h3 : ∀ t : Transaction,
      deserializeTransaction schema (serializeTransaction schema t) =
        schema.parseTx (schema.serialize t) := by
    intro t
    rw [deserializeTransaction, serializeTransaction, Buffer.ofBinaryString_toBinaryString]
  exact ⟨Buffer.ofBinaryString_toBinaryString, Buffer.toBinaryString_ofBinaryString, h3,
    fun t ht => by rw [h3 t, ht]⟩

theorem transaction_round_trip_witness :
    exampleSchema.parseTx (exampleSchema.serialize [1, 0, 0, 255]) = some [1, 0, 0, 255] ∧
    deserializeTransaction exampleSchema (serializeTransaction exampleSchema [1, 0, 0, 255]) =
      some [1, 0, 0, 255] :=
  ⟨by decide,
    (transaction_round_trip exampleSchema).2.2.2 [1, 0, 0, 255] (by decide)⟩

/-! ### Heights beyond 32 bits -/

theorem formatHeightKey_mod (h : Nat) :
    formatHeightKey (h : ℚ) = formatHeightKey ((h % 2 ^ 32 : ℕ) : ℚ) := by
  rw [formatHeightKey_natCast, formatHeightKey_natCast]
  have e1 : h % 2 ^ 32 / 2 ^ 24 % 256 = h / 2 ^ 24 % 256 := by omega
  have e2 : h % 2 ^ 32 / 2 ^ 16 % 256 = h / 2 ^ 16 % 256 := by omega
  have e3 : h % 2 ^ 32 / 2 ^ 8 % 256 = h / 2 ^ 8 % 256 := by omega
  have e4 : h % 2 ^ 32 % 256 = h % 256 := by omega
  rw [e1, e2, e3, e4]

/-- C17: `formatHeightKey` masks instead of rejecting: for every non-negative
integer height `h` the key of `h` is the key of `h mod 2^32`; the distinct
heights `0` and `2^32` have the same key; and of two blocks at such heights
the one saved later takes over the height-index entry of the earlier one. -/
theorem height_key_wraps_at_32_bits :
    (∀ h : Nat, formatHeightKey (h : ℚ) = formatHeightKey ((h % 2 ^ 32 : ℕ) : ℚ)) ∧
    ((0 : ℕ) ≠ 2 ^ 32 ∧ formatHeightKey ((0 : ℕ) : ℚ) = formatHeightKey ((2 ^ 32 : ℕ) : ℚ)) ∧
    (∀ (getHash : Block → Buffer) (s : Store) (b1 b2 : Block),
      b1.height % 2 ^ 32 = b2.height % 2 ^ 32 →
      (saveBlock getHash s b1).2 = .ok () →
      (saveBlock getHash (saveBlock getHash s b1).1 b2).2 = .ok () →
      (saveBlock getHash s b1).1.bBlockHeightIndex.find (formatHeightKey b1.height) =
        some (getHash b1).toBinaryString ∧
      (saveBlock getHash (saveBlock getHash s b1).1 b2).1.bBlockHeightIndex.find
        (formatHeightKey b1.height) = some (getHash b2).toBinaryString) := by
  refine ⟨formatHeightKey_mod, ⟨by decide, ?_⟩, ?_⟩
  · rw [formatHeightKey_mod (2 ^ 32)]
    rfl
  · intro getHash s b1 b2 hmod hok1 hok2
    have hkey : formatHeightKey (b1.height : ℚ) = formatHeightKey (b2.height : ℚ) := by
      rw [formatHeightKey_mod b1.height, formatHeightKey_mod b2.height, hmod]
    refine ⟨(saveBlock_finds getHash s b1 hok1).1, ?_⟩
    rw [hkey]
    exact (saveBlock_finds getHash _ b2 hok2).1

theorem height_key_wraps_at_32_bits_witness :
    block0.height % 2 ^ 32 = blockWrap.height % 2 ^ 32 ∧ block0.height ≠ blockWrap.height ∧
    (saveBlock exampleHash Store.empty block0).1.bBlockHeightIndex.find
        (formatHeightKey block0.height) = some (exampleHash block0).toBinaryString ∧
    (saveBlock exampleHash (saveBlock exampleHash Store.empty block0).1
        blockWrap).1.bBlockHeightIndex.find (formatHeightKey block0.height) =
      some (exampleHash blockWrap).toBinaryString :=
  have hk := saveBlock_keeps_healthy exampleHash Store.empty block0 rfl rfl rfl
  ⟨by decide, by decide,
    height_key_wraps_at_32_bits.2.2 exampleHash Store.empty block0 blockWrap (by decide)
      (saveBlock_healthy _ _ _ rfl rfl rfl) (saveBlock_healthy _ _ _ hk.1 hk.2.1 hk.2.2)⟩

/-! ### Save and get -/

theorem saveBlock_hBlock (getHash : Block → Buffer) (s : Store) (b : Block) :
    (saveBlock getHash s b).1.hBlock =
      (s.hBlock.put (getHash b).toBinaryString (serializeBlock b)).1 := by
  obtain ⟨c1, c2, c3⟩ := saveBlock_cases getHash s b
  cases h1 : s.hBlock.fault with
  | some e => rw [c1 e h1, Table.put_of_fault _ _ _ e h1]
  | none =>
    cases h2 : s.bBlockHeightIndex.fault with
    | some e => rw [c2 h1 e h2]
    | none => rw [c3 h1 h2]

theorem Table.find_put_of_ne (t : Table) (k v k1 : JSString) (hne : k1 ≠ k) :
    (t.put k v).1.find k1 = t.find k1 := by
  cases h : t.fault with
  | some e => rw [Table.put_of_fault _ _ _ e h]
  | none => rw [Table.find_put _ _ _ _ h, if_neg hne]

/-- C19: after a successful `saveBlock(b)`, on any store, `getBlockByHash` of
the hash of `b` returns `b` (every serialized field) and `knowsBlock` returns
true; and `saveBlock(b)`, successful or not, leaves the block-table entry of
every other hash as it was. -/
theorem save_then_get_block (getHash : Block → Buffer) (s : Store) (b : Block) :
    ((saveBlock getHash s b).2 = .ok () →
      getBlockByHash (saveBlock getHash s b).1 (HashRef.buffer (getHash b)) = .ok (some b) ∧
      getBlockByHash (saveBlock getHash s b).1
        (HashRef.string (getHash b).toBinaryString) = .ok (some b) ∧
      knowsBlock (saveBlock getHash s b).1 (HashRef.buffer (getHash b)) = .ok true) ∧
    (∀ k, k ≠ (getHash b).toBinaryString →
      (saveBlock getHash s b).1.hBlock.find k = s.hBlock.find k) := by
  constructor
  · intro hok
    obtain ⟨_, f2, f3, _⟩ := saveBlock_finds getHash s b hok
    have h1 := getBlockByHash_of_find _ (HashRef.buffer (getHash b)) b f3 f2
    have h2 := getBlockByHash_of_find _ (HashRef.string (getHash b).toBinaryString) b f3 f2
    exact ⟨h1, h2, by simp [knowsBlock, h1]⟩
  · intro k hk
    rw [saveBlock_hBlock, Table.find_put_of_ne _ _ _ _ hk]

theorem save_then_get_block_witness :
    (saveBlock exampleHash exampleStore blockY).2 = .ok () ∧
    getBlockByHash (saveBlock exampleHash exampleStore blockY).1
      (HashRef.buffer (exampleHash blockY)) = .ok (some blockY) ∧
    getBlockByHash (saveBlock exampleHash exampleStore blockY).1
      (HashRef.string (exampleHash blockY).toBinaryString) = .ok (some blockY) ∧
    knowsBlock (saveBlock exampleHash exampleStore blockY).1
      (HashRef.buffer (exampleHash blockY)) = .ok true :=
  ⟨saveBlock_healthy _ _ _ rfl rfl rfl,
    (save_then_get_block exampleHash exampleStore blockY).1 (saveBlock_healthy _ _ _ rfl rfl rfl)⟩

/-! ### Batched lookup by height -/

theorem getBlockByHash_eq_stored (s : Store) (k : HashRef) (hfault : s.hBlock.fault = none)
    (hdec : ∀ d, s.hBlock.find k.toKey = some d → (deserializeBlock d).isSome = true) :
    getBlockByHash s k = .ok (storedBlock s k.toKey) := by
  unfold getBlockByHash storedBlock Table.get
  simp only [hfault]
  cases hf : s.hBlock.find k.toKey with
  | none => rfl
  | some d =>
    have hd := hdec d hf
    obtain ⟨b, hb⟩ := Option.isSome_iff_exists.mp hd
    simp [truthy_of_decodes d hd, hb]

/-- The block a height leads to: the decoded record under the hash the
height index holds for it, unless that hash is the empty string. -/
theorem getBlockByHeight_eq (s : Store) (height : ℚ) (hfault : s.hBlock.fault = none)
    (hfault2 : s.bBlockHeightIndex.fault = none) (hdec : BlockRecordsDecode s) :
    getBlockByHeight s height =
      .ok ((s.bBlockHeightIndex.find (formatHeightKey height)).bind fun hash =>
        if truthy hash then storedBlock s hash else none) := by
  unfold getBlockByHeight Table.get
  simp only [hfault2]
  cases hf : s.bBlockHeightIndex.find (formatHeightKey height) with
  | none => rfl
  | some hash =>
    by_cases ht : truthy hash = true
    · simp only [ht, if_true, Option.some_bind]
      exact getBlockByHash_eq_stored s (.string hash) hfault (fun d hd => hdec _ d hd)
    · simp [ht]

theorem getBlocksByHeights_eq (s : Store) (heights : List ℚ) (hfault : s.hBlock.fault = none)
    (hfault2 : s.bBlockHeightIndex.fault = none) (hdec : BlockRecordsDecode s) :
    getBlocksByHeights s heights =
      .ok (heights.filterMap fun height =>
        (s.bBlockHeightIndex.find (formatHeightKey height)).bind fun hash =>
          if truthy hash then storedBlock s hash else none) := by
  unfold getBlocksByHeights Table.getBulk
  simp only [hfault2]
  rw [getBlocksByHashes_eq s _ hfault (fun k _ d hd => hdec _ d hd)]
  congr 1
  rw [List.filterMap_map, List.filterMap_filterMap, List.filterMap_map]
  apply List.filterMap_congr
  intro h hh
  have hmem : formatHeightKey h ∈ heights.map fun height => formatHeightKey height :=
    List.mem_map.mpr ⟨h, hh, rfl⟩
  simp only [Function.comp, lookup_getBulk, hmem, if_true]
  cases hf : s.bBlockHeightIndex.find (formatHeightKey h) with
  | none => rfl
  | some hash =>
    by_cases ht : truthy hash = true
    · simp [ht, HashRef.toKey, storedBlock]
    · simp [ht]

theorem saveBlock_preserves_decode (getHash : Block → Buffer) (s : Store) (b : Block)
    (h : BlockRecordsDecode s) : BlockRecordsDecode (saveBlock getHash s b).1 := by
  intro k d hk
  rw [saveBlock_hBlock] at hk
  by_cases hkey : k = (getHash b).toBinaryString
  · cases hf : s.hBlock.fault with
    | some e =>
      rw [Table.put_of_fault _ _ _ e hf] at hk
      exact h k d hk
    | none =>
      rw [Table.find_put _ _ _ _ hf, if_pos hkey] at hk
      cases hk
      rw [deserializeBlock_serializeBlock]; rfl
  · rw [Table.find_put_of_ne _ _ _ _ hkey] at hk
    exact h k d hk

/-- Saving blocks into a store that is in order leaves it in order: no table
at fault, every block record decodes, and the indexes point into the block
table. -/
theorem saveBlocks_in_order (getHash : Block → Buffer) (bs : List Block) (s : Store)
    (h1 : s.hBlock.fault = none) (h2 : s.bBlockHeightIndex.fault = none)
    (h3 : s.hBlockPrevIndex.fault = none) (hdec : BlockRecordsDecode s)
    (hint : IndexIntegrity s) :
    (saveBlocks getHash s bs).hBlock.fault = none ∧
    (saveBlocks getHash s bs).bBlockHeightIndex.fault = none ∧
    BlockRecordsDecode (saveBlocks getHash s bs) ∧ IndexIntegrity (saveBlocks getHash s bs) := by
  induction bs generalizing s with
  | nil => exact ⟨h1, h2, hdec, hint⟩
  | cons b rest ih =>
    have hk := saveBlock_keeps_healthy getHash s b h1 h2 h3
    exact ih (saveBlock getHash s b).1 hk.1 hk.2.1 hk.2.2
      (saveBlock_preserves_decode getHash s b hdec)
      (saveBlock_preserves_integrity getHash s b (saveBlock_healthy getHash s b h1 h2 h3) hint)

theorem empty_in_order : BlockRecordsDecode Store.empty ∧ IndexIntegrity Store.empty := by
  refine ⟨?_, ?_, ?_⟩ <;> intro k d h <;> cases h

/-- C18: on a store whose block table and height index answer, whose block
records decode and whose indexes point into the block table,
`getBlocksByHeights(heights)`, for heights below `2^32`, returns the input
sequence mapped through `getBlockByHeight` with the null results removed, in
the order of the input; a height without an entry in the height index is one
of those nulls, and a height whose entry is a non-empty hash is not. -/
theorem blocks_by_heights_refines_block_by_height (s : Store) (heights : List ℚ)
    (hfault : s.hBlock.fault = none) (hfault2 : s.bBlockHeightIndex.fault = none)
    (hdec : BlockRecordsDecode s) (hint : IndexIntegrity s)
    (_hb : ∀ h ∈ heights, 0 ≤ h ∧ h < 2 ^ 32) :
    getBlocksByHeights s heights = .ok (blocksByHeightsSpec s heights) ∧
    (∀ h ∈ heights, s.bBlockHeightIndex.find (formatHeightKey h) = none →
      getBlockByHeight s h = .ok none) ∧
    (∀ h ∈ heights, ∀ hash, s.bBlockHeightIndex.find (formatHeightKey h) = some hash →
      hash ≠ [] → ∃ b, getBlockByHeight s h = .ok (some b)) := by
  refine ⟨?_, ?_, ?_⟩
  · rw [getBlocksByHeights_eq s heights hfault hfault2 hdec, blocksByHeightsSpec]
    congr 1
    apply List.filterMap_congr
    intro h _
    rw [getBlockByHeight_eq s h hfault hfault2 hdec]
    cases (s.bBlockHeightIndex.find (formatHeightKey h)).bind fun hash =>
      if truthy hash then storedBlock s hash else none <;> rfl
  · intro h _ hnone
    rw [getBlockByHeight_eq s h hfault hfault2 hdec, hnone]
    rfl
  · intro h _ hash hsome hne
    obtain ⟨d, hd⟩ := Option.isSome_iff_exists.mp (hint.1 _ _ hsome)
    obtain ⟨b, hb⟩ := Option.isSome_iff_exists.mp (hdec _ _ hd)
    have ht : truthy hash = true := by
      cases hash with
      | nil => exact absurd rfl hne
      | cons c cs => rfl
    refine ⟨b, ?_⟩
    rw [getBlockByHeight_eq s h hfault hfault2 hdec, hsome]
    simp [ht, storedBlock, hd, hb]

theorem blocks_by_heights_refines_block_by_height_witness :
    (∀ h ∈ [(9 : ℚ), 5, 3 / 2], 0 ≤ h ∧ h < 2 ^ 32) ∧
    getBlocksByHeights (saveBlocks exampleHash Store.empty [block1, block2, block9])
        [9, 5, 3 / 2] =
      .ok (blocksByHeightsSpec (saveBlocks exampleHash Store.empty [block1, block2, block9])
        [9, 5, 3 / 2]) :=
  have hb : ∀ h ∈ [(9 : ℚ), 5, 3 / 2], 0 ≤ h ∧ h < 2 ^ 32 := by
    intro h hh
    simp only [List.mem_cons, List.mem_singleton, List.not_mem_nil, or_false] at hh
    rcases hh with rfl | rfl | rfl <;> norm_num
  have ho := saveBlocks_in_order exampleHash [block1, block2, block9] Store.empty rfl rfl rfl
    empty_in_order.1 empty_in_order.2
  ⟨hb, (blocks_by_heights_refines_block_by_height _ _ ho.1 ho.2.1 ho.2.2.1 ho.2.2.2 hb).1⟩

/-! ### Ties in the locator -/

theorem foldl_higher_first (bs : List Block) (acc : Option Block) (b : Block)
    (h : bs.foldl higher acc = some b) :
    acc = some b ∨
    ∃ pre post, bs = pre ++ b :: post ∧ b.active = true ∧
      (∀ a, acc = some a → a.height < b.height) ∧
      (∀ x ∈ pre, x.active = true → x.height < b.height) := by
  induction bs generalizing acc with
  | nil => exact Or.inl h
  | cons x xs ih =>
    simp only [List.foldl_cons] at h
    rcases ih (higher acc x) h with hl | ⟨pre, post, hxs, hact, hacc, hpre⟩
    · cases acc with
      | none =>
        rw [higher_none] at hl
        by_cases hx : x.active = true
        · simp only [hx, if_true, Option.some.injEq] at hl
          subst hl
          exact Or.inr ⟨[], xs, rfl, hx, by simp, by simp⟩
        · simp [hx] at hl
      | some a =>
        rw [higher_some] at hl
        by_cases hx : x.active = true ∧ a.height < x.height
        · simp only [hx, and_self, if_true, Option.some.injEq] at hl
          subst hl
          refine Or.inr ⟨[], xs, rfl, hx.1, ?_, by simp⟩
          intro a1 ha1
          cases ha1
          exact hx.2
        · simp only [hx, if_false] at hl
          exact Or.inl hl
    · refine Or.inr ⟨x :: pre, post, by simp [hxs], hact, ?_, ?_⟩
      · intro a ha
        subst ha
        rw [higher_some] at hacc
        by_cases hx : x.active = true ∧ a.height < x.height
        · simp only [hx, and_self, if_true] at hacc
          have := hacc x rfl
          omega
        · simp only [hx, if_false] at hacc
          exact hacc a rfl
      · intro y hy hyact
        rcases List.mem_cons.mp hy with rfl | hy
        · cases acc with
          | none =>
            rw [higher_none] at hacc
            simp only [hyact, if_true] at hacc
            exact hacc y rfl
          | some a =>
            rw [higher_some] at hacc
            by_cases hx : y.active = true ∧ a.height < y.height
            · simp only [hx, and_self, if_true] at hacc
              exact hacc y rfl
            · simp only [hx, if_false] at hacc
              have := hacc a rfl
              have : ¬ a.height < y.height := fun hlt => hx ⟨hyact, hlt⟩
              omega
        · exact hpre y hy hyact

theorem filterMap_eq_append_cons {α β : Type} (f : α → Option β) (l : List α) (pre : List β)
    (b : β) (post : List β) (h : l.filterMap f = pre ++ b :: post) :
    ∃ lpre k lpost, l = lpre ++ k :: lpost ∧ f k = some b ∧ lpre.filterMap f = pre ∧
      lpost.filterMap f = post := by
  induction l generalizing pre with
  | nil => simp at h
  | cons a rest ih =>
    cases hfa : f a with
    | none =>
      rw [List.filterMap_cons_none hfa] at h
      obtain ⟨lpre, k, lpost, e1, e2, e3, e4⟩ := ih pre h
      exact ⟨a :: lpre, k, lpost, by simp [e1], e2, by rw [List.filterMap_cons_none hfa, e3], e4⟩
    | some c =>
      rw [List.filterMap_cons_some hfa] at h
      cases pre with
      | nil =>
        simp only [List.nil_append, List.cons.injEq] at h
        obtain ⟨rfl, h2⟩ := h
        exact ⟨[], a, rest, rfl, hfa, rfl, h2⟩
      | cons p pre1 =>
        simp only [List.cons_append, List.cons.injEq] at h
        obtain ⟨rfl, h2⟩ := h
        obtain ⟨lpre, k, lpost, e1, e2, e3, e4⟩ := ih pre1 h2
        exact ⟨a :: lpre, k, lpost, by simp [e1], e2,
          by rw [List.filterMap_cons_some hfa, e3], e4⟩

/-- C20: when the engine answers and the candidate records decode, the block
`getBlockByLocator` delivers is stored under a hash of the locator before
which every stored active candidate is strictly lower, and after which every
stored active candidate is at most as high: among the active candidates of
the greatest height it is the one whose hash comes first in the locator, also
when several share that height. The result depends on nothing but the locator
and the content of the block table. -/
theorem locator_tie_goes_to_first (s : Store) (locator : List HashRef)
    (hfault : s.hBlock.fault = none)
    (hdec : ∀ k ∈ locator, ∀ d, s.hBlock.find k.toKey = some d →
      (deserializeBlock d).isSome = true)
    (b : Block) (hres : getBlockByLocator s locator = .ok (some b)) :
    (∃ pre k post, locator = pre ++ k :: post ∧ storedBlock s k.toKey = some b ∧
      b.active = true ∧
      (∀ k1 ∈ pre, ∀ x, storedBlock s k1.toKey = some x → x.active = true →
        x.height < b.height) ∧
      (∀ k1 ∈ post, ∀ x, storedBlock s k1.toKey = some x → x.active = true →
        x.height ≤ b.height)) ∧
    (∀ s1 : Store, s1.hBlock = s.hBlock →
      getBlockByLocator s1 locator = getBlockByLocator s locator) := by
  constructor
  · have hfold : (locator.filterMap fun k => storedBlock s k.toKey).foldl higher none =
        some b := by
      unfold getBlockByLocator at hres
      rw [getBlocksByHashes_eq s locator hfault hdec] at hres
      simpa using hres
    obtain ⟨_, hmax, _⟩ := (foldl_higher_spec _ none).1 b hfold
    rcases foldl_higher_first _ none b hfold with h0 | ⟨pre, post, hsplit, hact, _, hpre⟩
    · cases h0
    · obtain ⟨lpre, k, lpost, e1, e2, e3, e4⟩ :=
        filterMap_eq_append_cons (fun k => storedBlock s k.toKey) locator pre b post hsplit
      refine ⟨lpre, k, lpost, e1, e2, hact, ?_, ?_⟩
      · intro k1 hk1 x hx hxact
        apply hpre x _ hxact
        rw [← e3]
        exact List.mem_filterMap.mpr ⟨k1, hk1, hx⟩
      · intro k1 hk1 x hx hxact
        apply hmax x _ hxact
        exact List.mem_filterMap.mpr ⟨k1, by rw [e1]; simp [hk1], hx⟩
  · intro s1 h1
    unfold getBlockByLocator getBlocksByHashes
    rw [h1]

theorem exampleFork_stored :
    storedBlock exampleFork (exampleHash blockX).toBinaryString = some blockX ∧
    storedBlock exampleFork (exampleHash blockY).toBinaryString = some blockY ∧
    storedBlock exampleFork (exampleHash blockY2).toBinaryString = some blockY2 := by
  have hx : exampleFork.hBlock.find (exampleHash blockX).toBinaryString =
      some (serializeBlock blockX) := rfl
  have hy : exampleFork.hBlock.find (exampleHash blockY).toBinaryString =
      some (serializeBlock blockY) := rfl
  have hy2 : exampleFork.hBlock.find (exampleHash blockY2).toBinaryString =
      some (serializeBlock blockY2) := rfl
  simp only [storedBlock, hx, hy, hy2, Option.some_bind, deserializeBlock_serializeBlock,
    and_self]

theorem exampleFork_decodes (k : HashRef)
    (hk : k ∈ [HashRef.buffer (exampleHash blockY2), HashRef.buffer (exampleHash blockX),
      HashRef.buffer (exampleHash blockY)]) (d : JSString)
    (hd : exampleFork.hBlock.find k.toKey = some d) : (deserializeBlock d).isSome = true := by
  obtain ⟨hx, hy, hy2⟩ := exampleFork_stored
  simp only [List.mem_cons, List.mem_singleton, List.not_mem_nil, or_false] at hk
  rcases hk with rfl | rfl | rfl
  · simp only [storedBlock, HashRef.toKey] at hy2 hd
    rw [hd] at hy2
    simp only [Option.some_bind] at hy2
    rw [hy2]; rfl
  · simp only [storedBlock, HashRef.toKey] at hx hd
    rw [hd] at hx
    simp only [Option.some_bind] at hx
    rw [hx]; rfl
  · simp only [storedBlock, HashRef.toKey] at hy hd
    rw [hd] at hy
    simp only [Option.some_bind] at hy
    rw [hy]; rfl

/-- The tie of the example: `blockY2` and `blockY` are both active at height
7, and the locator names `blockY2` first. -/
theorem exampleFork_locator :
    getBlockByLocator exampleFork
      [HashRef.buffer (exampleHash blockY2), HashRef.buffer (exampleHash blockX),
        HashRef.buffer (exampleHash blockY)] = .ok (some blockY2) := by
  obtain ⟨hx, hy, hy2⟩ := exampleFork_stored
  unfold getBlockByLocator
  rw [getBlocksByHashes_eq exampleFork _ rfl exampleFork_decodes]
  simp only [List.filterMap_cons, List.filterMap_nil, HashRef.toKey]
  simp only [storedBlock] at hx hy hy2
  rw [hx, hy, hy2]
  decide

theorem locator_tie_goes_to_first_witness :
    blockY2.active = true ∧ blockY.active = true ∧ blockY2.height = blockY.height ∧
    getBlockByLocator exampleFork
      [HashRef.buffer (exampleHash blockY2), HashRef.buffer (exampleHash blockX),
        HashRef.buffer (exampleHash blockY)] = .ok (some blockY2) ∧
    ∃ pre k post,
      [HashRef.buffer (exampleHash blockY2), HashRef.buffer (exampleHash blockX),
        HashRef.buffer (exampleHash blockY)] = pre ++ k :: post ∧
      storedBlock exampleFork k.toKey = some blockY2 ∧ blockY2.active = true ∧
      (∀ k1 ∈ pre, ∀ x, storedBlock exampleFork k1.toKey = some x → x.active = true →
        x.height < blockY2.height) ∧
      (∀ k1 ∈ post, ∀ x, storedBlock exampleFork k1.toKey = some x → x.active = true →
        x.height ≤ blockY2.height) :=
  ⟨rfl, rfl, rfl, exampleFork_locator,
    (locator_tie_goes_to_first exampleFork _ rfl exampleFork_decodes blockY2
      exampleFork_locator).1⟩

end TokyoStorage
